import Mathlib

/-!
Verification of a layered directed-graph library.

The source program defines a base graph store (`VersatileDigraph`, holding a
node set and an adjacency dictionary mapping each node to a set of
out-neighbours), a topological sorter (`SortableDigraph.top_sort`, Kahn's
algorithm), traversal producers (`TraversableDigraph.dfs` / `bfs`) and a
cycle-preventing variant (`DAG`, whose `add_edge` first runs the BFS
reachability check `_has_path` and raises instead of inserting when the new
edge would close a cycle).  All subclasses share the base storage, so the
whole library is embedded here as operations over a single state type.

Embedding choices:
* nodes are natural numbers (the source treats them as opaque hashable
  values; only equality is used);
* a Python `set` is embedded as a duplicate-free `List` kept in insertion
  order (set iteration order is unspecified in the source, so every claim
  proved here is order-independent or holds for the concrete order);
* the adjacency dictionary is an association list `List (Nat × List Nat)`;
* the unbounded `while` loops of the source are embedded as fuelled
  recursions; each wrapper passes a fuel value proved large enough that the
  fuelled loop finishes exactly like the source loop.
-/

/-- Nodes of the graph.  The source allows any hashable value; only equality
on nodes is ever used, so naturals suffice. -/
abbrev Node := Nat

/-- Insertion into a Python `set`, embedded on duplicate-free lists:
`s.add(x)` is a no-op when the element is present. -/
def setInsert (s : List Node) (x : Node) : List Node :=
  if x ∈ s then s else s ++ [x]

/-- Dictionary lookup on an association list (`d.get(k)` / `d[k]`). -/
def alook {β : Type} : List (Nat × β) → Nat → Option β
  | [], _ => none
  | p :: ps, k => if p.1 = k then some p.2 else alook ps k

/-- `self.edges[u].add(v)`: update the (unique) entry of key `u` by inserting
`v` into its stored set.  Entries other than the first match are untouched,
which agrees with a Python dict since keys are unique. -/
def adjUpdate : List (Nat × List Node) → Nat → Node → List (Nat × List Node)
  | [], _, _ => []
  | p :: ps, u, v => if p.1 = u then (p.1, setInsert p.2 v) :: ps else p :: adjUpdate ps u v

/-- The base graph store of the source (`VersatileDigraph.__init__`):
`nodes` is the node set and `edges` the adjacency dictionary. -/
structure VersatileDigraph where
  nodes : List Node
  edges : List (Node × List Node)
deriving DecidableEq, Repr

/-- The empty graph (`VersatileDigraph()`). -/
def emptyG : VersatileDigraph := ⟨[], []⟩

namespace VersatileDigraph

/-- `add_node`: insert the node; create an empty adjacency entry iff absent. -/
def add_node (g : VersatileDigraph) (n : Node) : VersatileDigraph :=
  { nodes := setInsert g.nodes n
    edges := match alook g.edges n with
             | some _ => g.edges
             | none => g.edges ++ [(n, [])] }

/-- `add_edge` of the base store: ensure both endpoints exist, then add `v`
to `u`'s adjacency set. -/
def add_edge (g : VersatileDigraph) (u v : Node) : VersatileDigraph :=
  let g1 := (g.add_node u).add_node v
  { g1 with edges := adjUpdate g1.edges u v }

/-- `get_neighbors`: the adjacency set of `node`, or the empty set when the
node is absent (`self.edges.get(node, set())`). -/
def get_neighbors (g : VersatileDigraph) (n : Node) : List Node :=
  (alook g.edges n).getD []

/-- `get_all_nodes`: all nodes as a sequence (`list(self.nodes)`). -/
def get_all_nodes (g : VersatileDigraph) : List Node :=
  g.nodes

end VersatileDigraph

/-- The one-step edge relation of a graph state: `u → v` holds when `v` is
stored among `u`'s out-neighbours. -/
def edgeRel (g : VersatileDigraph) (u v : Node) : Prop :=
  v ∈ g.get_neighbors u

instance (g : VersatileDigraph) (u v : Node) : Decidable (edgeRel g u v) := by
  unfold edgeRel; infer_instance

/-- All values stored in adjacency sets, concatenated; used only to size the
fuel of the embedded loops. -/
def adjJoin (g : VersatileDigraph) : List Node :=
  (g.edges.map Prod.snd).flatten

/-! ### `DAG._has_path` (BFS reachability check)

The source loop, for each dequeued node, walks its neighbour set in order:
it returns `True` as soon as a neighbour equals `end`, and otherwise
enqueues (and marks visited) each unvisited neighbour.  `scanNbrs` is that
inner `for` loop: `none` signals "`end` found", `some (visited', queue')`
is the updated state. -/
def scanNbrs (e : Node) : List Node → List Node → List Node → Option (List Node × List Node)
  | [], visited, queue => some (visited, queue)
  | n :: ns, visited, queue =>
    if n = e then none
    else if n ∈ visited then scanNbrs e ns visited queue
    else scanNbrs e ns (n :: visited) (queue ++ [n])

/-- The `while queue:` loop of `_has_path`, with explicit fuel.  Each
iteration dequeues one node and scans its neighbours. -/
def hasPathAux (g : VersatileDigraph) (e : Node) : Nat → List Node → List Node → Bool
  | 0, _, _ => false
  | fuel + 1, visited, queue =>
    match queue with
    | [] => false
    | c :: rest =>
      match scanNbrs e (g.get_neighbors c) visited rest with
      | none => true
      | some p => hasPathAux g e fuel p.1 p.2

/-- Fuel for `_has_path`: every node ever enqueued beyond the start is a
fresh element of some adjacency set, so the loop runs at most
`1 + |adjJoin|` times; this bound is proved where needed. -/
def hasPathFuel (g : VersatileDigraph) : Nat :=
  2 + 2 * (adjJoin g).length

/-- `DAG._has_path(start, end)`: reflexively true, else BFS search. -/
def has_path (g : VersatileDigraph) (s e : Node) : Bool :=
  if s = e then true else hasPathAux g e (hasPathFuel g) [s] [s]

/-- `DAG.add_edge`: raise (modelled as `Except.error` carrying the offending
pair, as the source's error message does) when a path from `v` back to `u`
already exists; otherwise delegate to the base store's `add_edge`.  The
check precedes any mutation, so the error branch returns no new state. -/
def DAG_add_edge (g : VersatileDigraph) (u v : Node) : Except (Node × Node) VersatileDigraph :=
  if has_path g v u then Except.error (u, v) else Except.ok (g.add_edge u v)

/-- The state after a `DAG.add_edge` call whose exception, if raised, is
caught by the caller: on success the new graph, on failure the old one. -/
def dagStep (g : VersatileDigraph) (u v : Node) : VersatileDigraph :=
  match DAG_add_edge g u v with
  | Except.ok g' => g'
  | Except.error _ => g

/-- `DAG.successors`: the out-neighbours materialised as a sequence
(`list(self.get_neighbors(node))`). -/
def successors (g : VersatileDigraph) (n : Node) : List Node :=
  g.get_neighbors n

/-! ### `SortableDigraph.top_sort` (Kahn's algorithm)

The in-degree dictionary is embedded as a total function `Node → Int`
(the source dictionary has exactly the nodes as keys throughout, values
mutated in place; integers since Python counters may go negative on cyclic
graphs).  `degStep` is the body of the neighbour loop: decrement the
neighbour's in-degree and enqueue it when the new value is zero. -/
def degStep (p : (Node → Int) × List Node) (nb : Node) : (Node → Int) × List Node :=
  (fun x => if x = nb then p.1 nb - 1 else p.1 x,
   if p.1 nb - 1 = 0 then p.2 ++ [nb] else p.2)

/-- The `while queue:` loop of `top_sort`: dequeue, append to the result,
process neighbours. -/
def kahnLoop (g : VersatileDigraph) : Nat → (Node → Int) → List Node → List Node → List Node
  | 0, _, _, out => out
  | fuel + 1, indeg, queue, out =>
    match queue with
    | [] => out
    | c :: rest =>
      let p := (g.get_neighbors c).foldl degStep (indeg, [])
      kahnLoop g fuel p.1 (rest ++ p.2) (out ++ [c])

/-- The initial in-degree computation: the source's double loop increments
`in_degree[neighbor]` once per occurrence of `neighbor` in each node's
adjacency set, i.e. it computes exactly this sum of counts. -/
def initIndeg (g : VersatileDigraph) : Node → Int :=
  fun n => (g.nodes.map (fun m => ((g.get_neighbors m).count n : Int))).sum

/-- `top_sort`.  Each node is dequeued at most once, so `|nodes| + 1` fuel
always suffices (proved where needed). -/
def top_sort (g : VersatileDigraph) : List Node :=
  kahnLoop g (g.nodes.length + 1) (initIndeg g)
    (g.nodes.filter (fun n => decide (initIndeg g n = 0))) []

/-! ### `TraversableDigraph.dfs`

Stack-based DFS; a node is yielded (and marked visited) when popped, if not
already visited.  The source pushes the unvisited neighbours in reversed
iteration order onto the top of the stack, which leaves them on the stack
in original order ahead of the rest: with the list head as stack top, the
new stack is `filtered-neighbours ++ rest`. -/
def dfsAux (g : VersatileDigraph) : Nat → List Node → List Node → List Node
  | 0, _, _ => []
  | fuel + 1, stack, visited =>
    match stack with
    | [] => []
    | c :: rest =>
      if c ∈ visited then dfsAux g fuel rest visited
      else c :: dfsAux g fuel
        ((g.get_neighbors c).filter (fun x => decide (x ∉ c :: visited)) ++ rest)
        (c :: visited)

/-- Fuel for `dfs`: each visiting pop pushes at most `|adjJoin|` entries and
there are at most `1 + |adjJoin|` visiting pops, giving this bound on the
total number of iterations (proved where needed). -/
def dfsFuel (g : VersatileDigraph) : Nat :=
  2 + (1 + (adjJoin g).length) * (1 + (adjJoin g).length)

/-- `dfs(start)`: empty when `start` is absent, else the stack loop starting
from stack `[start]` and empty visited set. -/
def dfs (g : VersatileDigraph) (start : Node) : List Node :=
  if start ∈ g.nodes then dfsAux g (dfsFuel g) [start] [] else []

/-! ### `TraversableDigraph.bfs`

The loop body dequeues a node, yields it, and enqueues (marking visited)
each unvisited neighbour; the fold below is that neighbour loop over the
pair (visited, queue). -/
def bfsAux (g : VersatileDigraph) : Nat → List Node → List Node → List Node
  | 0, _, _ => []
  | fuel + 1, visited, queue =>
    match queue with
    | [] => []
    | c :: rest =>
      let p := (g.get_neighbors c).foldl
        (fun p nb => if nb ∈ p.1 then p else (nb :: p.1, p.2 ++ [nb])) (visited, rest)
      c :: bfsAux g fuel p.1 p.2

/-- Fuel for `bfs` (same bound as `_has_path`). -/
def bfsFuel (g : VersatileDigraph) : Nat :=
  2 + 2 * (adjJoin g).length

/-- `bfs(start)`: absent start gives the empty sequence.  The source then
sets `visited = {start}`, `queue = deque([start])` and immediately executes
`queue.popleft()` (embedded as `List.tail`) *before* the `while` loop, so
the loop starts on an empty queue. -/
def bfs (g : VersatileDigraph) (start : Node) : List Node :=
  if start ∈ g.nodes then bfsAux g (bfsFuel g) [start] (List.tail [start]) else []

/-! ### Invariants and specification-level relations -/

/-- Well-formedness of the stored representation: the node list is
duplicate-free, the adjacency dictionary has exactly the nodes as keys, and
adjacency sets are duplicate-free with members drawn from the node set.
This is the representation invariant of the source's `set`/`dict` storage. -/
structure WF (g : VersatileDigraph) : Prop where
  nodesND : g.nodes.Nodup
  keysND : (g.edges.map Prod.fst).Nodup
  nodesKeys : ∀ n ∈ g.nodes, n ∈ g.edges.map Prod.fst
  keysNodes : ∀ k ∈ g.edges.map Prod.fst, k ∈ g.nodes
  adjND : ∀ p ∈ g.edges, p.2.Nodup
  adjMem : ∀ p ∈ g.edges, ∀ v ∈ p.2, v ∈ g.nodes

/-- Graph states reachable from the empty graph through the library's
mutators: `add_node`, the base `add_edge`, and the DAG variant's `add_edge`
(whose failure leaves the state unchanged). -/
inductive Reachable : VersatileDigraph → Prop
  | empty : Reachable emptyG
  | node {g : VersatileDigraph} (n : Node) : Reachable g → Reachable (g.add_node n)
  | edge {g : VersatileDigraph} (u v : Node) : Reachable g → Reachable (g.add_edge u v)
  | dagEdge {g : VersatileDigraph} (u v : Node) : Reachable g → Reachable (dagStep g u v)

/-- Graph states reachable from the empty DAG using only the DAG variant's
operations (`add_node` and the guarded `add_edge`). -/
inductive DAGReachable : VersatileDigraph → Prop
  | empty : DAGReachable emptyG
  | node {g : VersatileDigraph} (n : Node) : DAGReachable g → DAGReachable (g.add_node n)
  | edge {g : VersatileDigraph} (u v : Node) : DAGReachable g → DAGReachable (dagStep g u v)

/-- Acyclicity: no node has a non-empty directed path back to itself. -/
def Acyclic (g : VersatileDigraph) : Prop :=
  ∀ n : Node, ¬ Relation.TransGen (edgeRel g) n n

/-- A non-empty directed path from `a` to `e` all of whose nodes *strictly
between* `a` and `e` avoid the list `V`.  This is the search-front notion
used in the BFS/DFS completeness invariants. -/
inductive RA (g : VersatileDigraph) (V : List Node) : Node → Node → Prop
  | single {a e : Node} : edgeRel g a e → RA g V a e
  | cons {a b e : Node} : edgeRel g a b → b ∉ V → RA g V b e → RA g V a e

/-- The in-neighbours of `n` among the stored nodes. -/
def predsOf (g : VersatileDigraph) (n : Node) : List Node :=
  g.nodes.filter (fun m => decide (n ∈ g.get_neighbors m))

/-- Loop invariant of Kahn's algorithm between iterations: the processed
prefix `out` and pending `queue` are duplicate-free nodes, the in-degree
function counts the predecessors not yet processed, a node has been seen
exactly when all its predecessors are processed, and every processed
node's predecessors lie strictly before it in `out`. -/
structure KInv (g : VersatileDigraph) (indeg : Node → Int)
    (queue out : List Node) : Prop where
  seenND : (out ++ queue).Nodup
  outSub : ∀ x ∈ out, x ∈ g.nodes
  qSub : ∀ x ∈ queue, x ∈ g.nodes
  deg : ∀ n, indeg n =
    (((predsOf g n).filter (fun m => decide (m ∉ out))).length : Int)
  seenIff : ∀ n ∈ g.nodes,
    (n ∈ out ∨ n ∈ queue) ↔ ∀ m ∈ predsOf g n, m ∈ out
  ord : ∀ i (h : i < out.length),
    ∀ m ∈ predsOf g (out.get ⟨i, h⟩), m ∈ out.take i

/-! ### Heap model for aliasing of `get_neighbors` results

The source's `get_neighbors` returns `self.edges.get(node, set())`: for a
present node this is the *internal* set object itself, for an absent node a
fresh set.  Pure values cannot express aliasing, so this small model makes
the Python object store explicit: adjacency sets live in a heap addressed
by identifiers, the dictionary maps nodes to identifiers, and `fresh` is
the next unused identifier. -/
structure HGraph where
  nodes : List Node
  edges : List (Node × Nat)
  heap : List (Nat × List Node)
  fresh : Nat
deriving DecidableEq, Repr

/-- The empty heap-model graph. -/
def hEmpty : HGraph := ⟨[], [], [], 0⟩

namespace HGraph

/-- `add_node` in the heap model: allocate an empty set for a new node. -/
def add_node (s : HGraph) (n : Node) : HGraph :=
  match alook s.edges n with
  | some _ => { s with nodes := setInsert s.nodes n }
  | none =>
    { nodes := setInsert s.nodes n
      edges := s.edges ++ [(n, s.fresh)]
      heap := s.heap ++ [(s.fresh, [])]
      fresh := s.fresh + 1 }

/-- `add_edge` in the heap model: `self.edges[u].add(v)` mutates the heap
cell holding `u`'s set. -/
def add_edge (s : HGraph) (u v : Node) : HGraph :=
  let s1 := (s.add_node u).add_node v
  match alook s1.edges u with
  | some i => { s1 with heap := adjUpdate s1.heap i v }
  | none => s1

/-- `get_neighbors` in the heap model: return the stored set object itself
(its identifier) for a present node; for an absent node, a freshly
allocated empty set (the `set()` default of `dict.get`). -/
def get_neighbors (s : HGraph) (n : Node) : Nat × HGraph :=
  match alook s.edges n with
  | some i => (i, s)
  | none => (s.fresh, { s with heap := s.heap ++ [(s.fresh, [])], fresh := s.fresh + 1 })

end HGraph

/-- A caller mutating a returned set object: `returned.add(x)`. -/
def setAdd (s : HGraph) (i : Nat) (x : Node) : HGraph :=
  { s with heap := adjUpdate s.heap i x }

/-- Read the adjacency of `n` as stored *inside* the graph (through the
dictionary and the heap). -/
def readNbrs (s : HGraph) (n : Node) : List Node :=
  match alook s.edges n with
  | some i => (alook s.heap i).getD []
  | none => []

/-- Representation invariant of the heap model: every identifier stored in
the dictionary is allocated in the heap and below `fresh`, and every heap
address is below `fresh`. -/
structure HWF (s : HGraph) : Prop where
  alloc : ∀ p ∈ s.edges, ∃ L, alook s.heap p.2 = some L
  idLt : ∀ p ∈ s.edges, p.2 < s.fresh
  heapLt : ∀ q ∈ s.heap, q.1 < s.fresh

/-- Heap-model states reachable through the library's operations together
with caller-side mutation of returned sets. -/
inductive HReachable : HGraph → Prop
  | empty : HReachable hEmpty
  | node {s : HGraph} (n : Node) : HReachable s → HReachable (s.add_node n)
  | edge {s : HGraph} (u v : Node) : HReachable s → HReachable (s.add_edge u v)
  | query {s : HGraph} (n : Node) : HReachable s → HReachable (s.get_neighbors n).2
  | mutate {s : HGraph} (i : Nat) (x : Node) : HReachable s → HReachable (setAdd s i x)

/-! ### Concrete graphs used as explicit inputs -/

/-- The 3-node cycle `a→b, b→c, c→a` of the specification's cycle-handling
test, built in the base (non-DAG) graph with `a, b, c = 0, 1, 2`. -/
def cycle3 : VersatileDigraph :=
  ((emptyG.add_edge 0 1).add_edge 1 2).add_edge 2 0

/-- The diamond `a→b, a→c, b→d, c→d` of the DFS test, with
`a, b, c, d = 0, 1, 2, 3`. -/
def gDiamond : VersatileDigraph :=
  (((emptyG.add_edge 0 1).add_edge 0 2).add_edge 1 3).add_edge 2 3

/-- A single edge `a→b` (`a, b = 0, 1`). -/
def gAB : VersatileDigraph :=
  emptyG.add_edge 0 1

/-- A single node and no edges. -/
def gOne : VersatileDigraph :=
  emptyG.add_node 0

/-- The DAG state after inserting `0→1` then `1→2` through the guarded
`add_edge`. -/
def gDag : VersatileDigraph :=
  dagStep (dagStep emptyG 0 1) 1 2

/-- Heap-model state with the single edge `0→1`. -/
def hAB : HGraph :=
  hEmpty.add_edge 0 1

section BasicLemmas

@[simp]
theorem mem_setInsert {s : List Node} {x y : Node} :
    y ∈ setInsert s x ↔ y ∈ s ∨ y = x := by
  unfold setInsert
  by_cases h : x ∈ s
  · simp only [if_pos h]
    constructor
    · exact Or.inl
    · rintro (hy | rfl) <;> [exact hy; exact h]
  · simp [if_neg h]

theorem setInsert_nodup {s : List Node} (hs : s.Nodup) (x : Node) :
    (setInsert s x).Nodup := by
  unfold setInsert
  by_cases h : x ∈ s
  · simpa [if_pos h]
  · simp only [if_neg h]
    simpa [List.nodup_append] using ⟨hs, h⟩

theorem setInsert_eq_self {s : List Node} {x : Node} (h : x ∈ s) :
    setInsert s x = s := by
  simp [setInsert, if_pos h]

theorem alook_append_left {β : Type} {l : List (Nat × β)} {k : Nat} {w : β}
    (h : alook l k = some w) (l' : List (Nat × β)) :
    alook (l ++ l') k = some w := by
  induction l with
  | nil => simp [alook] at h
  | cons p ps ih =>
    by_cases hp : p.1 = k
    · simpa [alook, hp] using by simpa [alook, hp] using h
    · simp only [alook, if_neg hp] at h ⊢
      exact ih h

theorem alook_append_self {β : Type} {l : List (Nat × β)} {k : Nat}
    (h : alook l k = none) (w : β) :
    alook (l ++ [(k, w)]) k = some w := by
  induction l with
  | nil => simp [alook]
  | cons p ps ih =>
    by_cases hp : p.1 = k
    · simp [alook, hp] at h
    · simp only [alook, if_neg hp] at h ⊢
      exact ih h

theorem alook_isSome_iff_mem_keys {β : Type} {l : List (Nat × β)} {k : Nat} :
    (alook l k).isSome ↔ k ∈ l.map Prod.fst := by
  induction l with
  | nil => simp [alook]
  | cons p ps ih =>
    by_cases hp : p.1 = k
    · simp [alook, hp]
    · simp only [alook, if_neg hp, List.map_cons, List.mem_cons, ih]
      constructor
      · exact Or.inr
      · rintro (h | h)
        · exact absurd h.symm hp
        · exact h

theorem adjUpdate_keys (l : List (Nat × List Node)) (u v : Nat) :
    (adjUpdate l u v).map Prod.fst = l.map Prod.fst := by
  induction l with
  | nil => rfl
  | cons p ps ih =>
    by_cases hp : p.1 = u
    · simp [adjUpdate, hp]
    · simp [adjUpdate, hp, ih]

theorem alook_adjUpdate (l : List (Nat × List Node)) (u v k : Nat) :
    alook (adjUpdate l u v) k =
      if k = u then (alook l u).map (fun s => setInsert s v) else alook l k := by
  induction l with
  | nil => simp [adjUpdate, alook]
  | cons p ps ih =>
    by_cases hp : p.1 = u
    · by_cases hk : k = u
      · simp [adjUpdate, alook, hp, hk]
      · have hne : p.1 ≠ k := fun h => hk (h.symm.trans hp)
        have hne2 : u ≠ k := fun h => hk h.symm
        simp [adjUpdate, alook, hp, hne, hk, hne2]
    · by_cases hk : k = u
      · subst hk
        simp only [adjUpdate, if_neg hp, alook, if_neg hp]
        simpa using ih
      · simp only [adjUpdate, if_neg hp, alook]
        by_cases hpk : p.1 = k
        · simp [hpk, hk]
        · simp only [if_neg hpk]
          simpa [hk] using ih

theorem adjUpdate_mem {l : List (Nat × List Node)} {u v : Nat}
    {q : Nat × List Node} (h : q ∈ adjUpdate l u v) :
    q ∈ l ∨ ∃ p ∈ l, p.1 = u ∧ q = (p.1, setInsert p.2 v) := by
  induction l with
  | nil => simp [adjUpdate] at h
  | cons p ps ih =>
    by_cases hp : p.1 = u
    · simp only [adjUpdate, if_pos hp, List.mem_cons] at h
      rcases h with h | h
      · exact Or.inr ⟨p, List.mem_cons_self _ _, hp, h⟩
      · exact Or.inl (List.mem_cons_of_mem _ h)
    · simp only [adjUpdate, if_neg hp, List.mem_cons] at h
      rcases h with h | h
      · exact Or.inl (h ▸ List.mem_cons_self _ _)
      · rcases ih h with h' | ⟨p', hp', hu, hq⟩
        · exact Or.inl (List.mem_cons_of_mem _ h')
        · exact Or.inr ⟨p', List.mem_cons_of_mem _ hp', hu, hq⟩

theorem adjUpdate_eq_self {l : List (Nat × List Node)} {u v : Nat} {s : List Node}
    (h : alook l u = some s) (hv : v ∈ s) : adjUpdate l u v = l := by
  induction l with
  | nil => simp [alook] at h
  | cons p ps ih =>
    by_cases hp : p.1 = u
    · simp only [alook, if_pos hp, Option.some.injEq] at h
      subst h
      simp [adjUpdate, if_pos hp, setInsert_eq_self hv]
    · simp only [alook, if_neg hp] at h
      simp [adjUpdate, if_neg hp, ih h]

theorem alook_append_none {β : Type} {l : List (Nat × β)} {k : Nat}
    (h : alook l k = none) (l' : List (Nat × β)) :
    alook (l ++ l') k = alook l' k := by
  induction l with
  | nil => simp
  | cons p ps ih =>
    by_cases hp : p.1 = k
    · simp [alook, hp] at h
    · simp only [alook, if_neg hp] at h
      simpa [alook, hp] using ih h

theorem alook_mem {β : Type} {l : List (Nat × β)} {k : Nat} {w : β}
    (h : alook l k = some w) : ∃ p ∈ l, p.1 = k ∧ p.2 = w := by
  induction l with
  | nil => simp [alook] at h
  | cons p ps ih =>
    by_cases hp : p.1 = k
    · simp only [alook, if_pos hp, Option.some.injEq] at h
      exact ⟨p, List.mem_cons_self _ _, hp, h⟩
    · simp only [alook, if_neg hp] at h
      obtain ⟨q, hq, h1, h2⟩ := ih h
      exact ⟨q, List.mem_cons_of_mem _ hq, h1, h2⟩

end BasicLemmas

namespace VersatileDigraph

theorem get_neighbors_sub_adjJoin {g : VersatileDigraph} {c x : Node}
    (h : x ∈ g.get_neighbors c) : x ∈ adjJoin g := by
  unfold get_neighbors at h
  cases hl : alook g.edges c with
  | none => rw [hl] at h; simp at h
  | some s =>
    rw [hl] at h
    simp only [Option.getD_some] at h
    obtain ⟨p, hp, -, h2⟩ := alook_mem hl
    exact List.mem_flatten.2 ⟨s, List.mem_map.2 ⟨p, hp, h2⟩, h⟩

theorem alook_append_single_ne {β : Type} {l : List (Nat × β)} {k n : Nat}
    (hk : k ≠ n) (w : β) :
    alook (l ++ [(n, w)]) k = alook l k := by
  cases hl : alook l k with
  | some s => exact alook_append_left hl _
  | none =>
    rw [alook_append_none hl]
    simp [alook, Ne.symm hk, hl]

@[simp]
theorem get_neighbors_add_node (g : VersatileDigraph) (n k : Node) :
    (g.add_node n).get_neighbors k = g.get_neighbors k := by
  unfold add_node get_neighbors
  cases h : alook g.edges n with
  | some s => simp
  | none =>
    simp only
    by_cases hk : k = n
    · subst hk
      rw [alook_append_self h, h]
      simp
    · rw [alook_append_single_ne hk]

theorem alook_add_node_self (g : VersatileDigraph) (n : Node) :
    alook (g.add_node n).edges n = some (g.get_neighbors n) := by
  unfold add_node get_neighbors
  cases h : alook g.edges n with
  | some s => simpa using h
  | none => simpa using alook_append_self h _

theorem alook_add_node_mono {g : VersatileDigraph} {k : Node} {s : List Node}
    (h : alook g.edges k = some s) (n : Node) :
    alook (g.add_node n).edges k = some s := by
  unfold add_node
  cases h' : alook g.edges n with
  | some _ => simpa using h
  | none => simpa using alook_append_left h _

theorem alook_add_edge_self (g : VersatileDigraph) (u v : Node) :
    alook (g.add_edge u v).edges u = some (setInsert (g.get_neighbors u) v) := by
  unfold add_edge
  simp only
  rw [alook_adjUpdate, if_pos rfl,
    alook_add_node_mono (alook_add_node_self g u) v]
  simp [get_neighbors_add_node]

@[simp]
theorem get_neighbors_add_edge (g : VersatileDigraph) (u v k : Node) :
    (g.add_edge u v).get_neighbors k =
      if k = u then setInsert (g.get_neighbors u) v else g.get_neighbors k := by
  by_cases hk : k = u
  · subst hk
    simp [get_neighbors, alook_add_edge_self]
  · simp only [if_neg hk]
    show ((alook (g.add_edge u v).edges k).getD []) = _
    unfold add_edge
    simp only
    rw [alook_adjUpdate, if_neg hk]
    show ((g.add_node u).add_node v).get_neighbors k = _
    simp [get_neighbors_add_node]

@[simp]
theorem nodes_add_edge (g : VersatileDigraph) (u v : Node) :
    (g.add_edge u v).nodes = setInsert (setInsert g.nodes u) v := rfl

@[simp]
theorem nodes_add_node (g : VersatileDigraph) (n : Node) :
    (g.add_node n).nodes = setInsert g.nodes n := by
  unfold add_node
  cases alook g.edges n <;> rfl

end VersatileDigraph

theorem edge_add_node (g : VersatileDigraph) (n a b : Node) :
    edgeRel (g.add_node n) a b ↔ edgeRel g a b := by
  unfold edgeRel
  rw [VersatileDigraph.get_neighbors_add_node]

theorem edge_add_edge (g : VersatileDigraph) (u v a b : Node) :
    edgeRel (g.add_edge u v) a b ↔ edgeRel g a b ∨ (a = u ∧ b = v) := by
  unfold edgeRel
  rw [VersatileDigraph.get_neighbors_add_edge]
  by_cases ha : a = u
  · subst ha
    simp [mem_setInsert]
  · simp [ha]

/-- **C7**: the base store's `add_edge` never fails and is total: after
`add_edge(u, v)` (for any values `u`, `v`, including `u = v`, on any graph
state), `v` is among `u`'s neighbours, both endpoints appear in
`get_all_nodes()` even if never separately added, and re-running the same
`add_edge` on the resulting state leaves the state unchanged. -/
theorem add_edge_inserts_and_idempotent (g : VersatileDigraph) (u v : Node) :
    v ∈ (g.add_edge u v).get_neighbors u ∧
    u ∈ (g.add_edge u v).get_all_nodes ∧
    v ∈ (g.add_edge u v).get_all_nodes ∧
    (g.add_edge u v).add_edge u v = g.add_edge u v := by
  set g' := g.add_edge u v with hg'
  have hnb : alook g'.edges u = some (setInsert (g.get_neighbors u) v) :=
    VersatileDigraph.alook_add_edge_self g u v
  have hmemv : v ∈ setInsert (g.get_neighbors u) v := mem_setInsert.2 (Or.inr rfl)
  have hu : u ∈ g'.nodes := by
    rw [hg', VersatileDigraph.nodes_add_edge]
    exact mem_setInsert.2 (Or.inl (mem_setInsert.2 (Or.inr rfl)))
  have hv : v ∈ g'.nodes := by
    rw [hg', VersatileDigraph.nodes_add_edge]
    exact mem_setInsert.2 (Or.inr rfl)
  refine ⟨?_, hu, hv, ?_⟩
  · show v ∈ (alook g'.edges u).getD []
    rw [hnb]
    exact hmemv
  · have step1 : g'.add_node u = g' := by
      unfold VersatileDigraph.add_node
      rw [hnb]
      simp [setInsert_eq_self hu]
    have hnbv : ∃ s, alook g'.edges v = some s := by
      by_cases hvu : v = u
      · exact ⟨_, by rw [hvu]; exact hnb⟩
      · have h1 : alook ((g.add_node u).add_node v).edges v =
            some ((g.add_node u).get_neighbors v) :=
          VersatileDigraph.alook_add_node_self _ v
        have h2 : alook g'.edges v = some ((g.add_node u).get_neighbors v) := by
          rw [hg']
          unfold VersatileDigraph.add_edge
          simp only
          rw [alook_adjUpdate, if_neg hvu]
          exact h1
        exact ⟨_, h2⟩
    have step2 : g'.add_node v = g' := by
      obtain ⟨s, hs⟩ := hnbv
      unfold VersatileDigraph.add_node
      rw [hs]
      simp [setInsert_eq_self hv]
    show g'.add_edge u v = g'
    unfold VersatileDigraph.add_edge
    simp only [step1, step2]
    have : adjUpdate g'.edges u v = g'.edges := adjUpdate_eq_self hnb hmemv
    rw [this]

/-! ### Well-formedness of reachable states (C8) -/

theorem WF.get_neighbors_nodup {g : VersatileDigraph} (h : WF g) (c : Node) :
    (g.get_neighbors c).Nodup := by
  unfold VersatileDigraph.get_neighbors
  cases hl : alook g.edges c with
  | none => simp
  | some s =>
    obtain ⟨p, hp, -, h2⟩ := alook_mem hl
    simpa [h2] using h.adjND p hp

theorem WF.get_neighbors_mem {g : VersatileDigraph} (h : WF g) {c x : Node}
    (hx : x ∈ g.get_neighbors c) : x ∈ g.nodes := by
  unfold VersatileDigraph.get_neighbors at hx
  cases hl : alook g.edges c with
  | none => rw [hl] at hx; simp at hx
  | some s =>
    rw [hl] at hx
    obtain ⟨p, hp, -, h2⟩ := alook_mem hl
    exact h.adjMem p hp x (by simpa [h2] using hx)

theorem WF.edge_src_mem {g : VersatileDigraph} (h : WF g) {u v : Node}
    (he : edgeRel g u v) : u ∈ g.nodes := by
  unfold edgeRel VersatileDigraph.get_neighbors at he
  cases hl : alook g.edges u with
  | none => rw [hl] at he; simp at he
  | some s =>
    exact h.keysNodes u (alook_isSome_iff_mem_keys.1 (by simp [hl]))

theorem WF_empty : WF emptyG := by
  constructor <;> simp [emptyG]

theorem WF.add_node {g : VersatileDigraph} (h : WF g) (n : Node) :
    WF (g.add_node n) := by
  unfold VersatileDigraph.add_node
  cases hl : alook g.edges n with
  | some s =>
    have hkey : n ∈ g.edges.map Prod.fst :=
      alook_isSome_iff_mem_keys.1 (by simp [hl])
    exact
      { nodesND := setInsert_nodup h.nodesND n
        keysND := h.keysND
        nodesKeys := by
          intro x hx
          rcases mem_setInsert.1 hx with hx' | rfl
          · exact h.nodesKeys x hx'
          · exact hkey
        keysNodes := fun k hk => mem_setInsert.2 (Or.inl (h.keysNodes k hk))
        adjND := h.adjND
        adjMem := fun p hp x hx => mem_setInsert.2 (Or.inl (h.adjMem p hp x hx)) }
  | none =>
    have hkey : n ∉ g.edges.map Prod.fst := by
      intro hmem
      have := alook_isSome_iff_mem_keys.2 hmem
      rw [hl] at this
      simp at this
    exact
      { nodesND := setInsert_nodup h.nodesND n
        keysND := by
          simp only [List.map_append, List.map_cons, List.map_nil]
          rw [List.nodup_append]
          exact ⟨h.keysND, List.nodup_singleton n, by simpa using hkey⟩
        nodesKeys := by
          intro x hx
          simp only [List.map_append, List.map_cons, List.map_nil, List.mem_append]
          rcases mem_setInsert.1 hx with hx' | rfl
          · exact Or.inl (h.nodesKeys x hx')
          · simp
        keysNodes := by
          intro k hk
          simp only [List.map_append, List.map_cons, List.map_nil, List.mem_append] at hk
          rcases hk with hk | hk
          · exact mem_setInsert.2 (Or.inl (h.keysNodes k hk))
          · simp only [List.mem_singleton] at hk
            exact mem_setInsert.2 (Or.inr hk)
        adjND := by
          intro p hp
          rcases List.mem_append.1 hp with hp' | hp'
          · exact h.adjND p hp'
          · simp only [List.mem_singleton] at hp'
            subst hp'
            exact List.nodup_nil
        adjMem := by
          intro p hp x hx
          rcases List.mem_append.1 hp with hp' | hp'
          · exact mem_setInsert.2 (Or.inl (h.adjMem p hp' x hx))
          · simp only [List.mem_singleton] at hp'
            subst hp'
            simp at hx }

theorem WF.add_edge {g : VersatileDigraph} (h : WF g) (u v : Node) :
    WF (g.add_edge u v) := by
  have h1 : WF ((g.add_node u).add_node v) := (h.add_node u).add_node v
  have hv : v ∈ ((g.add_node u).add_node v).nodes := by
    rw [VersatileDigraph.nodes_add_node]
    exact mem_setInsert.2 (Or.inr rfl)
  unfold VersatileDigraph.add_edge
  simp only
  exact
    { nodesND := h1.nodesND
      keysND := by rw [adjUpdate_keys]; exact h1.keysND
      nodesKeys := by rw [adjUpdate_keys]; exact h1.nodesKeys
      keysNodes := by rw [adjUpdate_keys]; exact h1.keysNodes
      adjND := by
        intro p hp
        rcases adjUpdate_mem hp with hp' | ⟨q, hq, -, rfl⟩
        · exact h1.adjND p hp'
        · exact setInsert_nodup (h1.adjND q hq) v
      adjMem := by
        intro p hp x hx
        rcases adjUpdate_mem hp with hp' | ⟨q, hq, -, rfl⟩
        · exact h1.adjMem p hp' x hx
        · simp only at hx
          rcases mem_setInsert.1 hx with hx' | rfl
          · exact h1.adjMem q hq x hx'
          · exact hv }

theorem dagStep_cases (g : VersatileDigraph) (u v : Node) :
    dagStep g u v = g.add_edge u v ∨ dagStep g u v = g := by
  unfold dagStep DAG_add_edge
  by_cases h : has_path g v u <;> simp [h]

theorem Reachable.wf {g : VersatileDigraph} (h : Reachable g) : WF g := by
  induction h with
  | empty => exact WF_empty
  | node n _ ih => exact ih.add_node n
  | edge u v _ ih => exact ih.add_edge u v
  | dagEdge u v _ ih =>
    rcases dagStep_cases _ u v with h' | h' <;> rw [h']
    · exact ih.add_edge u v
    · exact ih

theorem DAGReachable.toReachable {g : VersatileDigraph} (h : DAGReachable g) :
    Reachable g := by
  induction h with
  | empty => exact Reachable.empty
  | node n _ ih => exact Reachable.node n ih
  | edge u v _ ih => exact Reachable.dagEdge u v ih

/-- **C8**: in every graph state reachable from the empty graph by any
sequence of `add_node` / `add_edge` calls (base or DAG variant), the key
set of the adjacency map equals the node set, and every member of every
stored adjacency set is itself a node. -/
theorem reachable_keys_eq_nodes_and_adj_closed (g : VersatileDigraph)
    (h : Reachable g) :
    (∀ n, n ∈ g.edges.map Prod.fst ↔ n ∈ g.nodes) ∧
    (∀ p ∈ g.edges, ∀ v ∈ p.2, v ∈ g.nodes) := by
  have hw := h.wf
  exact ⟨fun n => ⟨hw.keysNodes n, hw.nodesKeys n⟩, hw.adjMem⟩

/-- Witness for C8 at the concrete diamond graph. -/
theorem reachable_keys_eq_nodes_witness :
    Reachable gDiamond ∧
      (3 ∈ gDiamond.edges.map Prod.fst ↔ 3 ∈ gDiamond.nodes) := by
  have hr : Reachable gDiamond :=
    Reachable.edge 2 3 (Reachable.edge 1 3 (Reachable.edge 0 2
      (Reachable.edge 0 1 Reachable.empty)))
  exact ⟨hr, (reachable_keys_eq_nodes_and_adj_closed gDiamond hr).1 3⟩

/-! ### Paths avoiding a visited set, and correctness of `_has_path` -/

theorem RA.toTransGen {g : VersatileDigraph} {V : List Node} {a e : Node}
    (h : RA g V a e) : Relation.TransGen (edgeRel g) a e := by
  induction h with
  | single h' => exact Relation.TransGen.single h'
  | cons h' _ _ ih => exact Relation.TransGen.head h' ih

theorem RA.snoc {g : VersatileDigraph} {V : List Node} {a b c : Node}
    (h : RA g V a b) : b ∉ V → edgeRel g b c → RA g V a c := by
  induction h with
  | single h' => exact fun hb hbc => RA.cons h' hb (RA.single hbc)
  | cons h' hx _ ih => exact fun hb hbc => RA.cons h' hx (ih hb hbc)

theorem transGen_toRA {g : VersatileDigraph} {a e : Node}
    (h : Relation.TransGen (edgeRel g) a e) : RA g [] a e := by
  induction h with
  | single h' => exact RA.single h'
  | tail _ h' ih => exact ih.snoc (by simp) h'

/-- Surgery: widening the avoided set either keeps the path intact or
yields a suffix of it starting at a newly avoided node. -/
theorem RA.mono_or {g : VersatileDigraph} {V : List Node} {a e : Node}
    (h : RA g V a e) (V' : List Node) (_hVV : ∀ x ∈ V, x ∈ V') :
    RA g V' a e ∨ ∃ b, b ∈ V' ∧ b ∉ V ∧ RA g V' b e := by
  induction h with
  | single h' => exact Or.inl (RA.single h')
  | @cons a b e h' hb p ih =>
    rcases ih with p' | ⟨b', h1, h2, p'⟩
    · by_cases hb' : b ∈ V'
      · exact Or.inr ⟨b, hb', hb, p'⟩
      · exact Or.inl (RA.cons h' hb' p')
    · exact Or.inr ⟨b', h1, h2, p'⟩

theorem scanNbrs_none_iff {e : Node} {ns : List Node} :
    ∀ {V Q : List Node}, scanNbrs e ns V Q = none ↔ e ∈ ns := by
  induction ns with
  | nil => intro V Q; simp [scanNbrs]
  | cons n ns ih =>
    intro V Q
    by_cases hne : n = e
    · subst hne
      simp [scanNbrs]
    · rw [List.mem_cons]
      by_cases hv : n ∈ V
      · simp [scanNbrs, hne, hv, ih, Ne.symm hne]
      · simp [scanNbrs, hne, hv, ih, Ne.symm hne]

theorem scanNbrs_some_facts {e : Node} {ns : List Node} :
    ∀ {V Q V' Q' : List Node}, scanNbrs e ns V Q = some (V', Q') →
      (∀ x ∈ V, x ∈ V') ∧ (∀ x ∈ Q, x ∈ Q') ∧
      (∀ x ∈ V', x ∈ V ∨ x ∈ Q') ∧
      (∀ n ∈ ns, n ∉ V → n ∈ V' ∧ n ∈ Q') ∧
      (∀ x ∈ Q', x ∈ Q ∨ x ∈ ns) := by
  induction ns with
  | nil =>
    intro V Q V' Q' h
    simp only [scanNbrs, Option.some.injEq, Prod.mk.injEq] at h
    obtain ⟨rfl, rfl⟩ := h
    exact ⟨fun x hx => hx, fun x hx => hx, fun x hx => Or.inl hx,
      by simp, fun x hx => Or.inl hx⟩
  | cons n ns ih =>
    intro V Q V' Q' h
    by_cases hne : n = e
    · simp [scanNbrs, hne] at h
    · by_cases hv : n ∈ V
      · simp only [scanNbrs, if_neg hne, if_pos hv] at h
        obtain ⟨h1, h2, h3, h4, h5⟩ := ih h
        refine ⟨h1, h2, h3, ?_, fun x hx => (h5 x hx).imp_right (List.mem_cons_of_mem n)⟩
        intro m hm hmV
        rcases List.mem_cons.1 hm with rfl | hm'
        · exact absurd hv hmV
        · exact h4 m hm' hmV
      · simp only [scanNbrs, if_neg hne, if_neg hv] at h
        obtain ⟨h1, h2, h3, h4, h5⟩ := ih h
        have hnV' : n ∈ V' := h1 n (List.mem_cons_self _ _)
        have hnQ' : n ∈ Q' := h2 n (by simp)
        refine ⟨?_, ?_, ?_, ?_, ?_⟩
        · exact fun x hx => h1 x (List.mem_cons_of_mem n hx)
        · exact fun x hx => h2 x (List.mem_append_left _ hx)
        · intro x hx
          rcases h3 x hx with hx' | hx'
          · rcases List.mem_cons.1 hx' with rfl | hx''
            · exact Or.inr hnQ'
            · exact Or.inl hx''
          · exact Or.inr hx'
        · intro m hm hmV
          rcases List.mem_cons.1 hm with rfl | hm'
          · exact ⟨hnV', hnQ'⟩
          · by_cases hmV1 : m ∈ n :: V
            · rcases List.mem_cons.1 hmV1 with rfl | hmV2
              · exact ⟨hnV', hnQ'⟩
              · exact absurd hmV2 hmV
            · exact h4 m hm' hmV1
        · intro x hx
          rcases h5 x hx with hx' | hx'
          · rcases List.mem_append.1 hx' with hx'' | hx''
            · exact Or.inl hx''
            · simp only [List.mem_singleton] at hx''
              subst hx''
              simp
          · exact Or.inr (List.mem_cons_of_mem n hx')

theorem filter_length_mono {α : Type} {p q : α → Bool} (l : List α)
    (h : ∀ x, p x = true → q x = true) :
    (l.filter p).length ≤ (l.filter q).length := by
  induction l with
  | nil => simp
  | cons a l ih =>
    rw [List.filter_cons, List.filter_cons]
    by_cases hpa : p a = true
    · rw [if_pos hpa, if_pos (h a hpa)]
      simpa using ih
    · rw [if_neg hpa]
      by_cases hqa : q a = true
      · rw [if_pos hqa]
        exact Nat.le_trans ih (by simp)
      · rw [if_neg hqa]
        exact ih

theorem filter_notMem_cons_lt {U V : List Node} {n : Node}
    (hU : n ∈ U) (hV : n ∉ V) :
    (U.filter (fun x => decide (x ∉ n :: V))).length <
      (U.filter (fun x => decide (x ∉ V))).length := by
  induction U with
  | nil => simp at hU
  | cons a U ih =>
    rw [List.filter_cons, List.filter_cons]
    have hmono : (U.filter (fun x => decide (x ∉ n :: V))).length ≤
        (U.filter (fun x => decide (x ∉ V))).length := by
      refine filter_length_mono U ?_
      intro x hx
      simp only [decide_eq_true_eq] at hx ⊢
      exact fun hxV => hx (List.mem_cons_of_mem n hxV)
    by_cases han : a = n
    · subst han
      rw [if_neg (by simp), if_pos (by simpa using hV)]
      simp only [List.length_cons]
      exact Nat.lt_succ_of_le hmono
    · have hU' : n ∈ U := by
        rcases List.mem_cons.1 hU with heq | hU'
        · exact absurd heq.symm han
        · exact hU'
      have hlt := ih hU'
      by_cases haV : a ∈ V
      · rw [if_neg (by simp [haV]), if_neg (by simpa using haV)]
        exact hlt
      · have h1 : (decide (a ∉ n :: V)) = true := by
          simp only [decide_eq_true_eq, List.mem_cons]
          push_neg
          exact ⟨han, haV⟩
        rw [if_pos h1, if_pos (by simpa using haV)]
        simp only [List.length_cons]
        exact Nat.succ_lt_succ hlt

theorem scanNbrs_measure {g : VersatileDigraph} {e : Node} {ns : List Node}
    (hns : ∀ n ∈ ns, n ∈ adjJoin g) :
    ∀ {V Q V' Q' : List Node}, scanNbrs e ns V Q = some (V', Q') →
      Q'.length + 2 * ((adjJoin g).filter (fun x => decide (x ∉ V'))).length ≤
        Q.length + 2 * ((adjJoin g).filter (fun x => decide (x ∉ V))).length := by
  induction ns with
  | nil =>
    intro V Q V' Q' h
    simp only [scanNbrs, Option.some.injEq, Prod.mk.injEq] at h
    obtain ⟨rfl, rfl⟩ := h
    exact le_refl _
  | cons n ns ih =>
    intro V Q V' Q' h
    have hns' : ∀ m ∈ ns, m ∈ adjJoin g := fun m hm => hns m (List.mem_cons_of_mem n hm)
    by_cases hne : n = e
    · simp [scanNbrs, hne] at h
    · by_cases hv : n ∈ V
      · simp only [scanNbrs, if_neg hne, if_pos hv] at h
        exact ih hns' h
      · simp only [scanNbrs, if_neg hne, if_neg hv] at h
        have h1 := ih hns' h
        have h2 := filter_notMem_cons_lt (hns n (List.mem_cons_self _ _)) hv
        simp only [List.length_append, List.length_singleton] at h1
        omega

theorem hasPathAux_sound {g : VersatileDigraph} {e s : Node} :
    ∀ (fuel : Nat) (V Q : List Node),
      (∀ x ∈ Q, Relation.ReflTransGen (edgeRel g) s x) →
      hasPathAux g e fuel V Q = true →
      Relation.TransGen (edgeRel g) s e := by
  intro fuel
  induction fuel with
  | zero => intro V Q _ h; simp [hasPathAux] at h
  | succ fuel ih =>
    intro V Q hQ h
    match Q, hQ, h with
    | [], hQ, h => simp [hasPathAux] at h
    | c :: rest, hQ, h =>
      simp only [hasPathAux] at h
      cases hscan : scanNbrs e (g.get_neighbors c) V rest with
      | none =>
        have he : e ∈ g.get_neighbors c := scanNbrs_none_iff.1 hscan
        exact Relation.TransGen.tail' (hQ c (List.mem_cons_self _ _)) he
      | some p =>
        rw [hscan] at h
        refine ih p.1 p.2 ?_ h
        intro x hx
        obtain ⟨-, -, -, -, h5⟩ := scanNbrs_some_facts hscan
        rcases h5 x hx with hx' | hx'
        · exact hQ x (List.mem_cons_of_mem c hx')
        · exact Relation.ReflTransGen.tail (hQ c (List.mem_cons_self _ _)) hx'

theorem hasPathAux_complete {g : VersatileDigraph} {e : Node} :
    ∀ (fuel : Nat) (V Q : List Node),
      Q.length + 2 * ((adjJoin g).filter (fun x => decide (x ∉ V))).length + 1 ≤ fuel →
      (∃ c ∈ Q, RA g V c e) →
      hasPathAux g e fuel V Q = true := by
  intro fuel
  induction fuel with
  | zero => intro V Q hf _; omega
  | succ fuel ih =>
    intro V Q hf hw
    match Q, hf, hw with
    | [], hf, hw => simp at hw
    | c :: rest, hf, hw =>
      simp only [hasPathAux]
      cases hscan : scanNbrs e (g.get_neighbors c) V rest with
      | none => rfl
      | some p =>
        obtain ⟨f1, f2, f3, f4, -⟩ := scanNbrs_some_facts hscan
        have hmeas := scanNbrs_measure
          (fun n hn => VersatileDigraph.get_neighbors_sub_adjJoin hn) hscan
        refine ih p.1 p.2 ?_ ?_
        · simp only [List.length_cons] at hf
          omega
        · obtain ⟨c0, hc0, hra⟩ := hw
          rcases List.mem_cons.1 hc0 with rfl | hc0'
          · cases hra with
            | single h' =>
              exact absurd (scanNbrs_none_iff.2 h') (by rw [hscan]; simp)
            | @cons a b e h' hb p' =>
              obtain ⟨hbV', hbQ'⟩ := f4 b h' hb
              rcases p'.mono_or p.1 f1 with p'' | ⟨b', h1, h2, p''⟩
              · exact ⟨b, hbQ', p''⟩
              · rcases f3 b' h1 with hb' | hb'
                · exact absurd hb' h2
                · exact ⟨b', hb', p''⟩
          · rcases hra.mono_or p.1 f1 with p'' | ⟨b', h1, h2, p''⟩
            · exact ⟨c0, f2 c0 hc0', p''⟩
            · rcases f3 b' h1 with hb' | hb'
              · exact absurd hb' h2
              · exact ⟨b', hb', p''⟩

/-- `_has_path(start, end)` decides reflexive-transitive reachability. -/
theorem has_path_iff (g : VersatileDigraph) (s e : Node) :
    has_path g s e = true ↔ Relation.ReflTransGen (edgeRel g) s e := by
  constructor
  · intro h
    unfold has_path at h
    by_cases hse : s = e
    · exact hse ▸ Relation.ReflTransGen.refl
    · rw [if_neg hse] at h
      exact (hasPathAux_sound (hasPathFuel g) [s] [s]
        (by intro x hx; simp only [List.mem_singleton] at hx; exact hx ▸ Relation.ReflTransGen.refl)
        h).to_reflTransGen
  · intro h
    unfold has_path
    by_cases hse : s = e
    · rw [if_pos hse]
    · rw [if_neg hse]
      rcases h.cases_head with h' | ⟨b, hb, hrtg⟩
      · exact absurd h' hse
      · have htg : Relation.TransGen (edgeRel g) s e := Relation.TransGen.head' hb hrtg
        have hra : RA g [] s e := transGen_toRA htg
        have hw : ∃ c ∈ [s], RA g [s] c e := by
          rcases hra.mono_or [s] (by simp) with p' | ⟨b', h1, -, p'⟩
          · exact ⟨s, by simp, p'⟩
          · simp only [List.mem_singleton] at h1
            exact ⟨s, by simp, h1 ▸ p'⟩
        refine hasPathAux_complete (hasPathFuel g) [s] [s] ?_ hw
        have := List.length_filter_le (fun x => decide (x ∉ [s])) (adjJoin g)
        unfold hasPathFuel
        simp only [List.length_singleton]
        omega

/-- **C1**: for every graph state and nodes `u`, `v`, the DAG variant's
`add_edge(u, v)` fails with the cycle error carrying the offending pair
`(u, v)` exactly when a (possibly empty, hence reflexive) path from `v`
back to `u` already exists; otherwise it succeeds and returns exactly the
state the base store's `add_edge` produces — the error branch is taken
before any mutation, so a failing call leaves no new state at all. -/
theorem DAG_add_edge_fails_iff_path (g : VersatileDigraph) (u v : Node) :
    (DAG_add_edge g u v = Except.error (u, v) ↔
      Relation.ReflTransGen (edgeRel g) v u) ∧
    (DAG_add_edge g u v = Except.ok (g.add_edge u v) ↔
      ¬ Relation.ReflTransGen (edgeRel g) v u) := by
  unfold DAG_add_edge
  by_cases h : has_path g v u = true
  · have hr := (has_path_iff g v u).1 h
    simp [h, hr]
  · have hr : ¬ Relation.ReflTransGen (edgeRel g) v u :=
      fun hc => h ((has_path_iff g v u).2 hc)
    simp [h, hr]

/-! ### The DAG invariant (C2) -/

theorem acyclic_of_no_edges (g : VersatileDigraph)
    (h : ∀ a b, ¬ edgeRel g a b) : Acyclic g := by
  intro n hn
  cases hn with
  | single h' => exact h _ _ h'
  | tail _ h' => exact h _ _ h'

theorem no_edges_emptyG : ∀ a b, ¬ edgeRel emptyG a b := by
  intro a b h
  simp [edgeRel, VersatileDigraph.get_neighbors, emptyG, alook] at h

theorem acyclic_add_node {g : VersatileDigraph} (h : Acyclic g) (n : Node) :
    Acyclic (g.add_node n) := by
  intro m hm
  exact h m (Relation.TransGen.mono
    (fun a b hab => (edge_add_node g n a b).1 hab) hm)

theorem rtg_add_edge_decompose {g : VersatileDigraph} {u v x y : Node}
    (h : Relation.ReflTransGen (edgeRel (g.add_edge u v)) x y) :
    Relation.ReflTransGen (edgeRel g) x y ∨
      (Relation.ReflTransGen (edgeRel g) x u ∧
        Relation.ReflTransGen (edgeRel g) v y) := by
  induction h with
  | refl => exact Or.inl Relation.ReflTransGen.refl
  | tail _ h' ih =>
    rcases (edge_add_edge g u v _ _).1 h' with he | ⟨rfl, rfl⟩
    · rcases ih with ih' | ⟨ih1, ih2⟩
      · exact Or.inl (ih'.tail he)
      · exact Or.inr ⟨ih1, ih2.tail he⟩
    · rcases ih with ih' | ⟨ih1, -⟩
      · exact Or.inr ⟨ih', Relation.ReflTransGen.refl⟩
      · exact Or.inr ⟨ih1, Relation.ReflTransGen.refl⟩

theorem acyclic_add_edge {g : VersatileDigraph} {u v : Node} (hA : Acyclic g)
    (hnp : ¬ Relation.ReflTransGen (edgeRel g) v u) :
    Acyclic (g.add_edge u v) := by
  intro n hn
  rcases Relation.TransGen.tail'_iff.1 hn with ⟨b, hxb, hby⟩
  rcases (edge_add_edge g u v b n).1 hby with he | ⟨rfl, rfl⟩
  · rcases rtg_add_edge_decompose hxb with h1 | ⟨h1, h2⟩
    · exact hA n (Relation.TransGen.tail' h1 he)
    · exact hnp (Relation.ReflTransGen.trans (h2.tail he) h1)
  · rcases rtg_add_edge_decompose hxb with h1 | ⟨h1, -⟩
    · exact hnp h1
    · exact hnp h1

/-- **C2**: every graph state reachable from the empty DAG by any finite
sequence of `add_node` and (guarded) `add_edge` calls — a rejected
`add_edge` leaving the state unchanged — contains no directed cycle. -/
theorem dag_reachable_acyclic (g : VersatileDigraph) (h : DAGReachable g) :
    Acyclic g := by
  induction h with
  | empty => exact acyclic_of_no_edges _ no_edges_emptyG
  | node n _ ih => exact acyclic_add_node ih n
  | @edge g u v _ ih =>
    by_cases hp : has_path g v u = true
    · have hstep : dagStep g u v = g := by
        unfold dagStep DAG_add_edge
        simp [hp]
      rw [hstep]
      exact ih
    · have hstep : dagStep g u v = g.add_edge u v := by
        unfold dagStep DAG_add_edge
        simp [hp]
      rw [hstep]
      exact acyclic_add_edge ih (fun hc => hp ((has_path_iff g v u).2 hc))

/-- Witness for C2 at the concrete two-edge DAG state. -/
theorem dag_reachable_acyclic_witness : DAGReachable gDag ∧ Acyclic gDag :=
  have hr : DAGReachable gDag :=
    DAGReachable.edge 1 2 (DAGReachable.edge 0 1 DAGReachable.empty)
  ⟨hr, dag_reachable_acyclic gDag hr⟩

/-! ### DFS correctness (C5, C10) -/

theorem get_neighbors_length_le (g : VersatileDigraph) (c : Node) :
    (g.get_neighbors c).length ≤ (adjJoin g).length := by
  unfold VersatileDigraph.get_neighbors
  cases hl : alook g.edges c with
  | none => simp
  | some s =>
    obtain ⟨p, hp, -, h2⟩ := alook_mem hl
    simp only [Option.getD_some]
    subst h2
    unfold adjJoin
    rw [List.length_flatten]
    exact List.single_le_sum (fun x _ => Nat.zero_le x) _
      (List.mem_map.2 ⟨p.2, List.mem_map.2 ⟨p, hp, rfl⟩, rfl⟩)

theorem dfsAux_nodup_fresh (g : VersatileDigraph) :
    ∀ (fuel : Nat) (stack visited : List Node),
      (dfsAux g fuel stack visited).Nodup ∧
      ∀ x ∈ dfsAux g fuel stack visited, x ∉ visited := by
  intro fuel
  induction fuel with
  | zero => intro stack visited; simp [dfsAux]
  | succ fuel ih =>
    intro stack visited
    match stack with
    | [] => simp [dfsAux]
    | c :: rest =>
      by_cases hc : c ∈ visited
      · simpa only [dfsAux, if_pos hc] using ih rest visited
      · simp only [dfsAux, if_neg hc]
        obtain ⟨hnd, hfresh⟩ := ih
          ((g.get_neighbors c).filter (fun x => decide (x ∉ c :: visited)) ++ rest)
          (c :: visited)
        refine ⟨List.nodup_cons.2 ⟨?_, hnd⟩, ?_⟩
        · intro hcmem
          exact hfresh c hcmem (List.mem_cons_self _ _)
        · intro x hx
          rcases List.mem_cons.1 hx with rfl | hx'
          · exact hc
          · exact fun hxv => hfresh x hx' (List.mem_cons_of_mem c hxv)

theorem dfsAux_sound (g : VersatileDigraph) (start : Node) :
    ∀ (fuel : Nat) (stack visited : List Node),
      (∀ s ∈ stack, Relation.ReflTransGen (edgeRel g) start s) →
      ∀ x ∈ dfsAux g fuel stack visited,
        Relation.ReflTransGen (edgeRel g) start x := by
  intro fuel
  induction fuel with
  | zero => intro stack visited _ x hx; simp [dfsAux] at hx
  | succ fuel ih =>
    intro stack visited hstack x hx
    match stack, hstack, hx with
    | [], _, hx => simp [dfsAux] at hx
    | c :: rest, hstack, hx =>
      by_cases hc : c ∈ visited
      · rw [dfsAux, if_pos hc] at hx
        exact ih rest visited (fun s hs => hstack s (List.mem_cons_of_mem c hs)) x hx
      · rw [dfsAux, if_neg hc] at hx
        rcases List.mem_cons.1 hx with rfl | hx'
        · exact hstack x (List.mem_cons_self _ _)
        · refine ih _ _ ?_ x hx'
          intro s hs
          rcases List.mem_append.1 hs with hs' | hs'
          · have hsn : s ∈ g.get_neighbors c := List.mem_of_mem_filter hs'
            exact Relation.ReflTransGen.tail (hstack c (List.mem_cons_self _ _)) hsn
          · exact hstack s (List.mem_cons_of_mem c hs')

/-- From a path out of the node just being visited, extract a witness on
the freshly pushed stack segment. -/
theorem dfs_push_witness {g : VersatileDigraph} {visited : List Node}
    {c x : Node} (hx : x ∉ c :: visited) (p : RA g (c :: visited) c x) :
    ∃ b ∈ (g.get_neighbors c).filter (fun y => decide (y ∉ c :: visited)),
      b ∉ c :: visited ∧ (b = x ∨ RA g (c :: visited) b x) := by
  cases p with
  | single h' =>
    exact ⟨x, List.mem_filter.2 ⟨h', by simpa using hx⟩, hx, Or.inl rfl⟩
  | @cons a b e h' hb p' =>
    exact ⟨b, List.mem_filter.2 ⟨h', by simpa using hb⟩, hb, Or.inr p'⟩

theorem dfsAux_complete (g : VersatileDigraph) (u0 : Node) :
    ∀ (fuel : Nat) (stack visited : List Node),
      (∀ s ∈ stack, s ∈ u0 :: adjJoin g) →
      stack.length +
        (1 + (adjJoin g).length) *
          (((u0 :: adjJoin g).filter (fun x => decide (x ∉ visited))).length) + 1 ≤ fuel →
      ∀ x, x ∉ visited →
      (∃ s ∈ stack, s ∉ visited ∧ (s = x ∨ RA g visited s x)) →
      x ∈ dfsAux g fuel stack visited := by
  intro fuel
  induction fuel with
  | zero => intro stack visited _ hf _ _ _; omega
  | succ fuel ih =>
    intro stack visited hsub hf x hxv hw
    match stack, hsub, hf, hw with
    | [], _, _, hw => simp at hw
    | c :: rest, hsub, hf, hw =>
      by_cases hc : c ∈ visited
      · rw [dfsAux, if_pos hc]
        obtain ⟨s, hs, hsnv, hor⟩ := hw
        have hs' : s ∈ rest := by
          rcases List.mem_cons.1 hs with rfl | hs'
          · exact absurd hc hsnv
          · exact hs'
        refine ih rest visited (fun t ht => hsub t (List.mem_cons_of_mem c ht)) ?_
          x hxv ⟨s, hs', hsnv, hor⟩
        simp only [List.length_cons] at hf
        omega
      · rw [dfsAux, if_neg hc]
        by_cases hxc : x = c
        · exact hxc ▸ List.mem_cons_self _ _
        · refine List.mem_cons_of_mem c ?_
          set push := (g.get_neighbors c).filter (fun y => decide (y ∉ c :: visited))
            with hpushdef
          have hcU : c ∈ u0 :: adjJoin g := hsub c (List.mem_cons_self _ _)
          have hcnt := filter_notMem_cons_lt (U := u0 :: adjJoin g) hcU hc
          have hpushle : push.length ≤ (adjJoin g).length := by
            rw [hpushdef]
            exact Nat.le_trans (List.length_filter_le _ _) (get_neighbors_length_le g c)
          -- fuel bookkeeping
          have hfuel' : (push ++ rest).length +
              (1 + (adjJoin g).length) *
                (((u0 :: adjJoin g).filter
                  (fun y => decide (y ∉ c :: visited))).length) + 1 ≤ fuel := by
            set A := (adjJoin g).length with hA
            set cnt := ((u0 :: adjJoin g).filter (fun y => decide (y ∉ visited))).length
            set cnt' := ((u0 :: adjJoin g).filter
              (fun y => decide (y ∉ c :: visited))).length
            have hmul : (1 + A) * cnt' + (1 + A) ≤ (1 + A) * cnt := by
              have h1 : cnt' + 1 ≤ cnt := hcnt
              calc (1 + A) * cnt' + (1 + A) = (1 + A) * (cnt' + 1) := by ring
                _ ≤ (1 + A) * cnt := Nat.mul_le_mul_left _ h1
            simp only [List.length_append, List.length_cons] at hf ⊢
            omega
          refine ih (push ++ rest) (c :: visited) ?_ hfuel' x
            (by simpa using ⟨fun h => hxc h, hxv⟩) ?_
          · intro t ht
            rcases List.mem_append.1 ht with ht' | ht'
            · exact List.mem_cons_of_mem u0
                (VersatileDigraph.get_neighbors_sub_adjJoin (List.mem_of_mem_filter ht'))
            · exact hsub t (List.mem_cons_of_mem c ht')
          · -- rebuild the witness in the new state
            obtain ⟨s, hs, hsnv, hor⟩ := hw
            have hxcv : x ∉ c :: visited := by simpa using ⟨fun h => hxc h, hxv⟩
            rcases hor with rfl | hra
            · -- the witness is x itself
              have hsc : s ≠ c := hxc
              have hs' : s ∈ rest := by
                rcases List.mem_cons.1 hs with h' | h'
                · exact absurd h' hsc
                · exact h'
              exact ⟨s, List.mem_append_right _ hs',
                by simpa using ⟨hsc, hsnv⟩, Or.inl rfl⟩
            · rcases hra.mono_or (c :: visited)
                (fun t ht => List.mem_cons_of_mem c ht) with p' | ⟨b, hbV', hbnV, p'⟩
              · by_cases hsc : s = c
                · subst hsc
                  obtain ⟨b, hbp, hbnv, hbor⟩ := dfs_push_witness hxcv p'
                  exact ⟨b, List.mem_append_left _ hbp, hbnv, hbor⟩
                · exact ⟨s, List.mem_append_right _ (by
                    rcases List.mem_cons.1 hs with h' | h'
                    · exact absurd h' hsc
                    · exact h'), by simpa using ⟨hsc, hsnv⟩, Or.inr p'⟩
              · have hbc : b = c := by
                  rcases List.mem_cons.1 hbV' with h' | h'
                  · exact h'
                  · exact absurd h' hbnV
                subst hbc
                obtain ⟨b', hbp, hbnv, hbor⟩ := dfs_push_witness hxcv p'
                exact ⟨b', List.mem_append_left _ hbp, hbnv, hbor⟩

/-- **C5**: `dfs(start)` on an absent start yields the empty sequence; on a
present start it terminates with a duplicate-free sequence containing
exactly the nodes reachable from `start` (including `start`): every
reachable node appears exactly once and no unreachable node appears. -/
theorem dfs_visits_reachable_exactly_once (g : VersatileDigraph) (start : Node) :
    (start ∉ g.nodes → dfs g start = []) ∧
    (start ∈ g.nodes →
      (dfs g start).Nodup ∧
      ∀ x, x ∈ dfs g start ↔ Relation.ReflTransGen (edgeRel g) start x) := by
  constructor
  · intro h
    simp [dfs, h]
  · intro h
    unfold dfs
    rw [if_pos h]
    refine ⟨(dfsAux_nodup_fresh g _ _ _).1, ?_⟩
    intro x
    constructor
    · intro hx
      refine dfsAux_sound g start _ _ _ ?_ x hx
      intro s hs
      simp only [List.mem_singleton] at hs
      exact hs ▸ Relation.ReflTransGen.refl
    · intro hrtg
      have hfilter : ((start :: adjJoin g).filter
          (fun y => decide (y ∉ ([] : List Node)))) = start :: adjJoin g :=
        List.filter_eq_self.2 (by intro a _; simp)
      refine dfsAux_complete g start (dfsFuel g) [start] [] ?_ ?_ x (by simp) ?_
      · intro s hs
        simp only [List.mem_singleton] at hs
        exact hs ▸ List.mem_cons_self _ _
      · rw [hfilter]
        unfold dfsFuel
        simp only [List.length_cons, List.length_nil]
        have hco : (1 + (adjJoin g).length) * ((adjJoin g).length + 1) =
            (1 + (adjJoin g).length) * (1 + (adjJoin g).length) := by ring
        omega
      · rcases hrtg.cases_head with heq | ⟨b, hb, hrtg'⟩
        · exact ⟨start, by simp, by simp, Or.inl heq⟩
        · exact ⟨start, by simp, by simp,
            Or.inr (transGen_toRA (Relation.TransGen.head' hb hrtg'))⟩

/-- Witness for C5 at the diamond graph from start `a = 0`. -/
theorem dfs_visits_reachable_witness :
    0 ∈ gDiamond.nodes ∧ (dfs gDiamond 0).Nodup ∧
      (3 ∈ dfs gDiamond 0 ↔ Relation.ReflTransGen (edgeRel gDiamond) 0 3) := by
  have h0 : 0 ∈ gDiamond.nodes := by decide
  have h := (dfs_visits_reachable_exactly_once gDiamond 0).2 h0
  exact ⟨h0, h.1, h.2 3⟩

/-- **C10**: for a present start node, `dfs(start)` is non-empty and its
first element is `start` itself — in contrast to `bfs`, which excludes the
start node. -/
theorem dfs_yields_start_first (g : VersatileDigraph) (start : Node)
    (h : start ∈ g.nodes) :
    ∃ l, dfs g start = start :: l := by
  unfold dfs
  rw [if_pos h]
  obtain ⟨f, hf⟩ : ∃ f, dfsFuel g = f + 1 := ⟨dfsFuel g - 1, by unfold dfsFuel; omega⟩
  rw [hf]
  rw [dfsAux, if_neg (by simp : ¬ start ∈ ([] : List Node))]
  exact ⟨_, rfl⟩

/-- Witness for C10 at the diamond graph from start `0`. -/
theorem dfs_yields_start_first_witness :
    0 ∈ gDiamond.nodes ∧ dfs gDiamond 0 = 0 :: (dfs gDiamond 0).tail := by
  have h0 : 0 ∈ gDiamond.nodes := by decide
  obtain ⟨l, hl⟩ := dfs_yields_start_first gDiamond 0 h0
  refine ⟨h0, by rw [hl]; rfl⟩

/-! ### The `bfs` defect (C6) -/

theorem bfs_loop_never_runs (g : VersatileDigraph) (start : Node) :
    bfs g start = [] := by
  unfold bfs
  by_cases h : start ∈ g.nodes
  · rw [if_pos h]
    show bfsAux g (bfsFuel g) [start] [] = []
    obtain ⟨f, hf⟩ : ∃ f, bfsFuel g = f + 1 :=
      ⟨bfsFuel g - 1, by unfold bfsFuel; omega⟩
    rw [hf]
    rfl
  · rw [if_neg h]

/-- **C6** (code defect, exhibited): the source's `bfs` discards `start`
from the queue *before* entering the loop and never expands its
neighbours, so the produced sequence is always empty; in particular on the
single-edge graph `a→b` (`0→1`), `b` is reachable from the present start
`a` and distinct from it, yet absent from `bfs(a)` — contradicting the
claim that every reachable non-start node appears exactly once. -/
theorem bfs_always_empty_on_edge :
    (∀ (g : VersatileDigraph) (s : Node), bfs g s = []) ∧
    0 ∈ gAB.nodes ∧ edgeRel gAB 0 1 ∧ bfs gAB 0 = [] := by
  exact ⟨bfs_loop_never_runs, by decide, by decide, bfs_loop_never_runs gAB 0⟩

/-! ### Kahn's algorithm: closed form of the neighbour fold -/

theorem foldl_degStep_fst {L : List Node} (hL : L.Nodup) :
    ∀ (d : Node → Int) (q : List Node) (x : Node),
      (L.foldl degStep (d, q)).1 x = if x ∈ L then d x - 1 else d x := by
  induction L with
  | nil => intro d q x; simp
  | cons n L ih =>
    intro d q x
    have hnL : n ∉ L := (List.nodup_cons.1 hL).1
    rw [List.foldl_cons]
    rw [ih (List.nodup_cons.1 hL).2]
    by_cases hx : x = n
    · subst hx
      rw [if_neg hnL, if_pos (List.mem_cons_self _ _)]
      simp [degStep]
    · by_cases hxL : x ∈ L
      · rw [if_pos hxL, if_pos (List.mem_cons_of_mem n hxL)]
        simp [degStep, hx]
      · rw [if_neg hxL, if_neg (by simp [hx, hxL])]
        simp [degStep, hx]

theorem foldl_degStep_snd {L : List Node} (hL : L.Nodup) :
    ∀ (d : Node → Int) (q : List Node),
      (L.foldl degStep (d, q)).2 = q ++ L.filter (fun x => decide (d x = 1)) := by
  induction L with
  | nil => intro d q; simp
  | cons n L ih =>
    intro d q
    have hnL : n ∉ L := (List.nodup_cons.1 hL).1
    rw [List.foldl_cons, ih (List.nodup_cons.1 hL).2]
    have hfc : L.filter (fun x => decide ((degStep (d, q) n).1 x = 1)) =
        L.filter (fun x => decide (d x = 1)) := by
      refine List.filter_congr ?_
      intro x hx
      have hxn : x ≠ n := fun h => hnL (h ▸ hx)
      simp [degStep, hxn]
    rw [hfc]
    show (if d n - 1 = 0 then q ++ [n] else q) ++ _ = _
    rw [List.filter_cons]
    by_cases hdn : d n = 1
    · rw [if_pos (by omega), if_pos (by simp [hdn])]
      simp
    · rw [if_neg (by omega), if_neg (by simp [hdn])]

/-! ### Kahn's algorithm: predecessor counts -/

theorem mem_predsOf {g : VersatileDigraph} {m n : Node} :
    m ∈ predsOf g n ↔ m ∈ g.nodes ∧ n ∈ g.get_neighbors m := by
  unfold predsOf
  rw [List.mem_filter]
  simp

theorem predsOf_nodup {g : VersatileDigraph} (hWF : WF g) (n : Node) :
    (predsOf g n).Nodup :=
  hWF.nodesND.filter _

theorem predsOf_sub_nodes {g : VersatileDigraph} {m n : Node}
    (h : m ∈ predsOf g n) : m ∈ g.nodes :=
  (mem_predsOf.1 h).1

theorem sum_ite_count (l : List Node) (p : Node → Bool) :
    (l.map (fun m => if p m then (1 : Int) else 0)).sum =
      ((l.filter p).length : Int) := by
  induction l with
  | nil => simp
  | cons a l ih =>
    rw [List.map_cons, List.sum_cons, ih, List.filter_cons]
    by_cases ha : p a = true
    · rw [if_pos ha, if_pos ha]
      simp only [List.length_cons]
      push_cast
      ring
    · rw [if_neg ha, if_neg ha]
      simp

theorem initIndeg_eq {g : VersatileDigraph} (hWF : WF g) (n : Node) :
    initIndeg g n = ((predsOf g n).length : Int) := by
  unfold initIndeg predsOf
  have hmap : g.nodes.map (fun m => ((g.get_neighbors m).count n : Int)) =
      g.nodes.map (fun m => if decide (n ∈ g.get_neighbors m) then (1 : Int) else 0) := by
    refine List.map_congr_left ?_
    intro m _
    by_cases hmem : n ∈ g.get_neighbors m
    · rw [if_pos (by simpa using hmem)]
      have hnd := hWF.get_neighbors_nodup m
      have : (g.get_neighbors m).count n = 1 :=
        List.count_eq_one_of_mem hnd hmem
      rw [this]
      simp
    · rw [if_neg (by simpa using hmem)]
      have : (g.get_neighbors m).count n = 0 :=
        List.count_eq_zero_of_not_mem hmem
      rw [this]
      simp
  rw [hmap, sum_ite_count]

/-- Removing one new element from the avoided-set: the filtered length
drops by exactly one when the element is present and previously kept. -/
theorem filter_out_append_one {l out : List Node} {c : Node} (hnd : l.Nodup)
    (hc : c ∈ l) (hcout : c ∉ out) :
    ((l.filter (fun m => decide (m ∉ out ++ [c]))).length : Int) =
      ((l.filter (fun m => decide (m ∉ out))).length : Int) - 1 := by
  induction l with
  | nil => simp at hc
  | cons b l ih =>
    have hbl : b ∉ l := (List.nodup_cons.1 hnd).1
    rw [List.filter_cons, List.filter_cons]
    by_cases hbc : b = c
    · subst hbc
      rw [if_neg (by simp), if_pos (by simpa using hcout)]
      have hfc : l.filter (fun m => decide (m ∉ out ++ [b])) =
          l.filter (fun m => decide (m ∉ out)) := by
        refine List.filter_congr ?_
        intro x hx
        have hxb : x ≠ b := fun h => hbl (h ▸ hx)
        simp [hxb]
      rw [hfc]
      simp only [List.length_cons]
      push_cast
      ring
    · have hcl : c ∈ l := by
        rcases List.mem_cons.1 hc with h' | h'
        · exact absurd h'.symm hbc
        · exact h'
      have hih := ih (List.nodup_cons.1 hnd).2 hcl
      by_cases hbout : b ∈ out
      · rw [if_neg (by simp [hbout]), if_neg (by simpa using hbout)]
        exact hih
      · rw [if_pos (by simp [hbout, hbc]), if_pos (by simpa using hbout)]
        simp only [List.length_cons]
        push_cast at hih ⊢
        omega

theorem filter_out_append_none {l out : List Node} {c : Node} (hc : c ∉ l) :
    l.filter (fun m => decide (m ∉ out ++ [c])) =
      l.filter (fun m => decide (m ∉ out)) := by
  refine List.filter_congr ?_
  intro x hx
  have hxc : x ≠ c := fun h => hc (h ▸ hx)
  simp [hxc]

theorem eq_singleton_of_nodup_all_eq {l : List Node} {a : Node}
    (hnd : l.Nodup) (hall : ∀ x ∈ l, x = a) (ha : a ∈ l) : l = [a] := by
  cases l with
  | nil => simp at ha
  | cons b l' =>
    have hb : b = a := hall b (List.mem_cons_self _ _)
    subst hb
    cases l' with
    | nil => rfl
    | cons d l'' =>
      have hd : d = b := hall d (by simp)
      exact absurd (hd ▸ (List.mem_cons_self d l'') : b ∈ d :: l'')
        (List.nodup_cons.1 hnd).1

theorem kahn_newQ_fresh {g : VersatileDigraph} (hWF : WF g)
    {indeg : Node → Int} {c : Node} {rest out : List Node}
    (hinv : KInv g indeg (c :: rest) out) :
    ∀ x, x ∈ g.get_neighbors c → indeg x = 1 →
      x ∈ g.nodes ∧ x ∉ out ∧ x ∉ c :: rest := by
  intro x hxnb hxdeg
  have hxn : x ∈ g.nodes := hWF.get_neighbors_mem hxnb
  have hlen : (((predsOf g x).filter (fun m => decide (m ∉ out))).length : Int) = 1 := by
    rw [← hinv.deg x]
    exact hxdeg
  have hlen' : ((predsOf g x).filter (fun m => decide (m ∉ out))).length = 1 := by
    exact_mod_cast hlen
  have hnonall : ¬ ∀ m ∈ predsOf g x, m ∈ out := by
    intro hall
    obtain ⟨a, ha⟩ := List.length_eq_one.1 hlen'
    have haf : a ∈ (predsOf g x).filter (fun m => decide (m ∉ out)) := by
      rw [ha]
      exact List.mem_cons_self _ _
    have h1 := List.mem_filter.1 haf
    exact (by simpa using h1.2 : a ∉ out) (hall a h1.1)
  have hnot : ¬ (x ∈ out ∨ x ∈ c :: rest) :=
    fun h => hnonall ((hinv.seenIff x hxn).1 h)
  push_neg at hnot
  exact ⟨hxn, hnot.1, hnot.2⟩

theorem kahn_step {g : VersatileDigraph} (hWF : WF g) {indeg : Node → Int}
    {c : Node} {rest out : List Node}
    (hinv : KInv g indeg (c :: rest) out) :
    KInv g ((g.get_neighbors c).foldl degStep (indeg, [])).1
      (rest ++ ((g.get_neighbors c).foldl degStep (indeg, [])).2)
      (out ++ [c]) := by
  have hnbnd : (g.get_neighbors c).Nodup := hWF.get_neighbors_nodup c
  have hfst := foldl_degStep_fst hnbnd indeg []
  have hnewQ_eq : ((g.get_neighbors c).foldl degStep (indeg, [])).2 =
      (g.get_neighbors c).filter (fun x => decide (indeg x = 1)) := by
    rw [foldl_degStep_snd hnbnd indeg []]
    simp
  set newQ := ((g.get_neighbors c).foldl degStep (indeg, [])).2 with hnewQdef
  have hcn : c ∈ g.nodes := hinv.qSub c (List.mem_cons_self _ _)
  have hsplit := List.nodup_append.1 hinv.seenND
  have hcout : c ∉ out := fun h => hsplit.2.2 h (List.mem_cons_self _ _)
  have hmemQ : ∀ x, x ∈ newQ ↔ (x ∈ g.get_neighbors c ∧ indeg x = 1) := by
    intro x
    rw [hnewQ_eq, List.mem_filter]
    simp
  have hfresh : ∀ x ∈ newQ, x ∈ g.nodes ∧ x ∉ out ∧ x ∉ c :: rest := by
    intro x hx
    obtain ⟨h1, h2⟩ := (hmemQ x).1 hx
    exact kahn_newQ_fresh hWF hinv x h1 h2
  refine
    { seenND := ?_
      outSub := ?_
      qSub := ?_
      deg := ?_
      seenIff := ?_
      ord := ?_ }
  · -- seenND
    have heq : (out ++ [c]) ++ (rest ++ newQ) = (out ++ c :: rest) ++ newQ := by
      simp
    rw [heq, List.nodup_append]
    refine ⟨hinv.seenND, ?_, ?_⟩
    · rw [hnewQ_eq]
      exact hnbnd.filter _
    · intro a ha haQ
      obtain ⟨-, h2, h3⟩ := hfresh a haQ
      rcases List.mem_append.1 ha with h' | h'
      · exact h2 h'
      · exact h3 h'
  · -- outSub
    intro x hx
    rcases List.mem_append.1 hx with h' | h'
    · exact hinv.outSub x h'
    · simp only [List.mem_singleton] at h'
      exact h' ▸ hcn
  · -- qSub
    intro x hx
    rcases List.mem_append.1 hx with h' | h'
    · exact hinv.qSub x (List.mem_cons_of_mem c h')
    · exact hWF.get_neighbors_mem ((hmemQ x).1 h').1
  · -- deg
    intro n
    rw [hfst n]
    by_cases hn : n ∈ g.get_neighbors c
    · rw [if_pos hn, hinv.deg n,
        filter_out_append_one (predsOf_nodup hWF n)
          (mem_predsOf.2 ⟨hcn, hn⟩) hcout]
    · rw [if_neg hn, hinv.deg n,
        filter_out_append_none (fun h => hn (mem_predsOf.1 h).2)]
  · -- seenIff
    intro n hn
    constructor
    · intro h
      rcases h with h | h
      · rcases List.mem_append.1 h with h' | h'
        · exact fun m hm =>
            List.mem_append_left _ ((hinv.seenIff n hn).1 (Or.inl h') m hm)
        · simp only [List.mem_singleton] at h'
          subst h'
          exact fun m hm =>
            List.mem_append_left _
              ((hinv.seenIff n hn).1 (Or.inr (List.mem_cons_self _ _)) m hm)
      · rcases List.mem_append.1 h with h' | h'
        · exact fun m hm =>
            List.mem_append_left _
              ((hinv.seenIff n hn).1 (Or.inr (List.mem_cons_of_mem c h')) m hm)
        · -- n freshly enqueued: its only unprocessed predecessor is c
          obtain ⟨hnnb, hndeg⟩ := (hmemQ n).1 h'
          intro m hm
          by_cases hmout : m ∈ out
          · exact List.mem_append_left _ hmout
          · have hmf : m ∈ (predsOf g n).filter (fun x => decide (x ∉ out)) :=
              List.mem_filter.2 ⟨hm, by simpa using hmout⟩
            have hlen' : ((predsOf g n).filter (fun x => decide (x ∉ out))).length = 1 := by
              have := hinv.deg n
              rw [hndeg] at this
              exact_mod_cast this.symm
            obtain ⟨a, ha⟩ := List.length_eq_one.1 hlen'
            have hcf : c ∈ (predsOf g n).filter (fun x => decide (x ∉ out)) :=
              List.mem_filter.2 ⟨mem_predsOf.2 ⟨hcn, hnnb⟩, by simpa using hcout⟩
            rw [ha] at hmf hcf
            simp only [List.mem_singleton] at hmf hcf
            rw [hmf, ← hcf]
            simp
    · intro hpreds
      by_cases hn_out : n ∈ out
      · exact Or.inl (List.mem_append_left _ hn_out)
      · by_cases hn_c : n = c
        · exact Or.inl (List.mem_append_right _ (by simp [hn_c]))
        · by_cases hn_rest : n ∈ rest
          · exact Or.inr (List.mem_append_left _ hn_rest)
          · have hnotseen : ¬ (n ∈ out ∨ n ∈ c :: rest) := by
              push_neg
              exact ⟨hn_out, by simp [hn_c, hn_rest]⟩
            have hnonall : ¬ ∀ m ∈ predsOf g n, m ∈ out :=
              fun hall => hnotseen ((hinv.seenIff n hn).2 hall)
            push_neg at hnonall
            obtain ⟨m0, hm0p, hm0o⟩ := hnonall
            have hm0c : m0 = c := by
              rcases List.mem_append.1 (hpreds m0 hm0p) with h' | h'
              · exact absurd h' hm0o
              · simpa using h'
            have hnnb : n ∈ g.get_neighbors c := by
              rw [← hm0c]
              exact (mem_predsOf.1 hm0p).2
            have hall_c : ∀ x ∈ (predsOf g n).filter (fun m => decide (m ∉ out)),
                x = c := by
              intro x hx
              obtain ⟨hx1, hx2⟩ := List.mem_filter.1 hx
              rcases List.mem_append.1 (hpreds x hx1) with h' | h'
              · exact absurd h' (by simpa using hx2)
              · simpa using h'
            have hcf : c ∈ (predsOf g n).filter (fun m => decide (m ∉ out)) :=
              List.mem_filter.2 ⟨mem_predsOf.2 ⟨hcn, hnnb⟩, by simpa using hcout⟩
            have hfilter_eq : (predsOf g n).filter (fun m => decide (m ∉ out)) = [c] :=
              eq_singleton_of_nodup_all_eq ((predsOf_nodup hWF n).filter _)
                hall_c hcf
            have hdeg1 : indeg n = 1 := by
              rw [hinv.deg n, hfilter_eq]
              rfl
            exact Or.inr (List.mem_append_right _ ((hmemQ n).2 ⟨hnnb, hdeg1⟩))
  · -- ord
    intro i h m hm
    by_cases hi : i < out.length
    · have hget : (out ++ [c]).get ⟨i, h⟩ = out.get ⟨i, hi⟩ :=
        List.get_append i hi
      rw [hget] at hm
      rw [List.take_append_of_le_length (Nat.le_of_lt hi)]
      exact hinv.ord i hi m hm
    · have hi' : i = out.length := by
        simp only [List.length_append, List.length_singleton] at h
        omega
      subst hi'
      have hget : (out ++ [c]).get ⟨out.length, h⟩ = c :=
        List.get_of_append rfl rfl
      rw [hget] at hm
      rw [List.take_left]
      exact (hinv.seenIff c hcn).1 (Or.inr (List.mem_cons_self _ _)) m hm

theorem kahnLoop_final {g : VersatileDigraph} (hWF : WF g) :
    ∀ (fuel : Nat) (indeg : Node → Int) (queue out : List Node),
      KInv g indeg queue out →
      g.nodes.length + 1 ≤ fuel + out.length →
      (kahnLoop g fuel indeg queue out).Nodup ∧
      (∀ x ∈ kahnLoop g fuel indeg queue out, x ∈ g.nodes) ∧
      (∀ n ∈ g.nodes, n ∈ kahnLoop g fuel indeg queue out ↔
        ∀ m ∈ predsOf g n, m ∈ kahnLoop g fuel indeg queue out) ∧
      (∀ i (h : i < (kahnLoop g fuel indeg queue out).length),
        ∀ m ∈ predsOf g ((kahnLoop g fuel indeg queue out).get ⟨i, h⟩),
          m ∈ (kahnLoop g fuel indeg queue out).take i) := by
  intro fuel
  induction fuel with
  | zero =>
    intro indeg queue out hinv hle
    exfalso
    have hnd : out.Nodup := (List.nodup_append.1 hinv.seenND).1
    have hsub : out ⊆ g.nodes := fun x hx => hinv.outSub x hx
    have := List.Subperm.length_le (List.subperm_of_subset hnd hsub)
    omega
  | succ fuel ih =>
    intro indeg queue out hinv hle
    match queue, hinv with
    | [], hinv =>
      have hred : kahnLoop g (fuel + 1) indeg [] out = out := rfl
      rw [hred]
      refine ⟨by simpa using hinv.seenND, hinv.outSub, ?_, hinv.ord⟩
      intro n hn
      simpa using hinv.seenIff n hn
    | c :: rest, hinv =>
      have hred : kahnLoop g (fuel + 1) indeg (c :: rest) out =
          kahnLoop g fuel ((g.get_neighbors c).foldl degStep (indeg, [])).1
            (rest ++ ((g.get_neighbors c).foldl degStep (indeg, [])).2)
            (out ++ [c]) := rfl
      rw [hred]
      refine ih _ _ _ (kahn_step hWF hinv) ?_
      simp only [List.length_append, List.length_singleton]
      omega

theorem kahn_init {g : VersatileDigraph} (hWF : WF g) :
    KInv g (initIndeg g)
      (g.nodes.filter (fun n => decide (initIndeg g n = 0))) [] := by
  refine
    { seenND := ?_
      outSub := ?_
      qSub := ?_
      deg := ?_
      seenIff := ?_
      ord := ?_ }
  · simpa using hWF.nodesND.filter _
  · simp
  · exact fun x hx => List.mem_of_mem_filter hx
  · intro n
    rw [initIndeg_eq hWF n]
    have hfe : (predsOf g n).filter (fun m => decide (m ∉ ([] : List Node))) =
        predsOf g n :=
      List.filter_eq_self.2 (by intro a _; simp)
    rw [hfe]
  · intro n hn
    constructor
    · intro h m hm
      rcases h with h | h
      · simp at h
      · have hd : initIndeg g n = 0 := by simpa using (List.mem_filter.1 h).2
        rw [initIndeg_eq hWF n] at hd
        have hlen : (predsOf g n).length = 0 := by exact_mod_cast hd
        rw [List.length_eq_zero.1 hlen] at hm
        simp at hm
    · intro hall
      refine Or.inr (List.mem_filter.2 ⟨hn, ?_⟩)
      have hnil : predsOf g n = [] := by
        by_contra hne
        obtain ⟨m, hm⟩ := List.exists_mem_of_ne_nil _ hne
        simpa using hall m hm
      simp [initIndeg_eq hWF n, hnil]
  · intro i h
    simp at h

theorem top_sort_props {g : VersatileDigraph} (hWF : WF g) :
    (top_sort g).Nodup ∧
    (∀ x ∈ top_sort g, x ∈ g.nodes) ∧
    (∀ n ∈ g.nodes, n ∈ top_sort g ↔ ∀ m ∈ predsOf g n, m ∈ top_sort g) ∧
    (∀ i (h : i < (top_sort g).length),
      ∀ m ∈ predsOf g ((top_sort g).get ⟨i, h⟩), m ∈ (top_sort g).take i) := by
  unfold top_sort
  exact kahnLoop_final hWF _ _ _ _ (kahn_init hWF) (by simp)

theorem mem_take_indexOf_lt :
    ∀ (l : List Node) (k : Nat) (u : Node), u ∈ l.take k → l.indexOf u < k := by
  intro l
  induction l with
  | nil => intro k u hu; simp at hu
  | cons a l ih =>
    intro k u hu
    cases k with
    | zero => simp at hu
    | succ k' =>
      rw [List.take_succ_cons] at hu
      rcases List.mem_cons.1 hu with rfl | hu'
      · simp
      · by_cases hua : u = a
        · simp [hua]
        · rw [List.indexOf_cons_ne _ (fun h => hua h.symm)]
          exact Nat.succ_lt_succ (ih k' u hu')

theorem top_sort_edge_lt {g : VersatileDigraph} (hWF : WF g) {u v : Node}
    (he : edgeRel g u v) (hv : v ∈ top_sort g) :
    u ∈ top_sort g ∧ (top_sort g).indexOf u < (top_sort g).indexOf v := by
  obtain ⟨hnd, hsub, hiff, hord⟩ := top_sort_props hWF
  have hun : u ∈ g.nodes := hWF.edge_src_mem he
  have hup : u ∈ predsOf g v := mem_predsOf.2 ⟨hun, he⟩
  have hvn : v ∈ g.nodes := hsub v hv
  have humem : u ∈ top_sort g := (hiff v hvn).1 hv u hup
  have hj : (top_sort g).indexOf v < (top_sort g).length :=
    List.indexOf_lt_length.2 hv
  have hget : (top_sort g).get ⟨(top_sort g).indexOf v, hj⟩ = v :=
    List.indexOf_get hj
  have htake := hord _ hj u (by rw [hget]; exact hup)
  exact ⟨humem, mem_take_indexOf_lt _ _ _ htake⟩

theorem top_sort_transGen_lt {g : VersatileDigraph} (hWF : WF g) {u v : Node}
    (htg : Relation.TransGen (edgeRel g) u v) :
    v ∈ top_sort g →
      u ∈ top_sort g ∧ (top_sort g).indexOf u < (top_sort g).indexOf v := by
  induction htg with
  | single h => exact fun hv => top_sort_edge_lt hWF h hv
  | tail _ h' ih =>
    intro hv
    obtain ⟨hb, hlt⟩ := top_sort_edge_lt hWF h' hv
    obtain ⟨hu, hlt'⟩ := ih hb
    exact ⟨hu, Nat.lt_trans hlt' hlt⟩

/-- **C3**: on every well-formed acyclic graph, `top_sort()` returns a
sequence containing every node exactly once (a permutation of the node
set), and for every edge `u→v`, `u` precedes `v` in the sequence
(`index(u) < index(v)`). -/
theorem top_sort_acyclic_correct (g : VersatileDigraph) (hWF : WF g)
    (hA : Acyclic g) :
    (top_sort g).Perm g.nodes ∧
    ∀ u v, edgeRel g u v →
      (top_sort g).indexOf u < (top_sort g).indexOf v := by
  obtain ⟨hnd, hsub, hiff, hord⟩ := top_sort_props hWF
  have hcomplete : ∀ n ∈ g.nodes, n ∈ top_sort g := by
    by_contra hne
    push_neg at hne
    obtain ⟨n0, hn0, hn0r⟩ := hne
    haveI hfin : Finite {x : Node // x ∈ g.nodes} :=
      Set.Finite.to_subtype (g.nodes.finite_toSet)
    let r : {x : Node // x ∈ g.nodes} → {x : Node // x ∈ g.nodes} → Prop :=
      fun a b => Relation.TransGen (edgeRel g) a.1 b.1
    haveI : IsTrans {x : Node // x ∈ g.nodes} r :=
      ⟨fun _ _ _ hab hbc => hab.trans hbc⟩
    haveI : IsIrrefl {x : Node // x ∈ g.nodes} r := ⟨fun a h => hA a.1 h⟩
    have hwf := Finite.wellFounded_of_trans_of_irrefl r
    have hSne : Set.Nonempty
        {a : {x : Node // x ∈ g.nodes} | a.1 ∉ top_sort g} := ⟨⟨n0, hn0⟩, hn0r⟩
    obtain ⟨a, haS, hmin⟩ := hwf.has_min _ hSne
    have hnonall : ¬ ∀ m ∈ predsOf g a.1, m ∈ top_sort g :=
      fun hall => haS ((hiff a.1 a.2).2 hall)
    push_neg at hnonall
    obtain ⟨m, hmp, hmr⟩ := hnonall
    exact hmin ⟨m, predsOf_sub_nodes hmp⟩ hmr
      (Relation.TransGen.single (mem_predsOf.1 hmp).2)
  constructor
  · exact (List.perm_ext_iff_of_nodup hnd hWF.nodesND).2
      (fun a => ⟨fun h => hsub a h, fun h => hcomplete a h⟩)
  · intro u v he
    have hvn : v ∈ g.nodes := hWF.get_neighbors_mem he
    exact (top_sort_edge_lt hWF he (hcomplete v hvn)).2

theorem no_edges_gOne : ∀ a b, ¬ edgeRel gOne a b := by
  intro a b h
  have hnb : gOne.get_neighbors a = [] := by
    show (alook gOne.edges a).getD [] = []
    have he : gOne.edges = [(0, [])] := rfl
    rw [he]
    unfold alook
    split
    · rfl
    · simp [alook]
  unfold edgeRel at h
  rw [hnb] at h
  simp at h

/-- Witness for C3 at the concrete one-node graph. -/
theorem top_sort_acyclic_witness :
    WF gOne ∧ Acyclic gOne ∧ (top_sort gOne).Perm gOne.nodes := by
  have hWF : WF gOne :=
    ⟨by decide, by decide, by decide, by decide, by decide, by decide⟩
  have hA : Acyclic gOne := acyclic_of_no_edges _ no_edges_gOne
  exact ⟨hWF, hA, (top_sort_acyclic_correct gOne hWF hA).1⟩

/-- **C4**: on every well-formed graph containing a directed cycle,
`top_sort()` returns (without raising any error — it is a total function)
a sequence strictly shorter than the node count; and on the concrete
3-node cycle `a→b, b→c, c→a` built in the base graph, it returns the
empty sequence while the graph has 3 nodes. -/
theorem top_sort_cycle_partial :
    (∀ g : VersatileDigraph, WF g →
        (∃ n, Relation.TransGen (edgeRel g) n n) →
        (top_sort g).length < g.nodes.length) ∧
    top_sort cycle3 = [] ∧ cycle3.nodes.length = 3 := by
  refine ⟨?_, by decide, by decide⟩
  rintro g hWF ⟨n, htg⟩
  obtain ⟨hnd, hsub, hiff, hord⟩ := top_sort_props hWF
  have hsp : List.Subperm (top_sort g) g.nodes :=
    List.subperm_of_subset hnd (fun x hx => hsub x hx)
  have hle : (top_sort g).length ≤ g.nodes.length := List.Subperm.length_le hsp
  by_contra hge
  have heq : g.nodes.length ≤ (top_sort g).length := by omega
  have hperm : (top_sort g).Perm g.nodes :=
    List.Subperm.perm_of_length_le hsp heq
  obtain ⟨b, -, hbn⟩ := Relation.TransGen.tail'_iff.1 htg
  have hnn : n ∈ g.nodes := hWF.get_neighbors_mem hbn
  have hnr : n ∈ top_sort g := hperm.mem_iff.2 hnn
  have := (top_sort_transGen_lt hWF htg hnr).2
  omega

/-- Witness for C4's general part at the concrete 3-cycle. -/
theorem top_sort_cycle_partial_witness :
    WF cycle3 ∧ (top_sort cycle3).length < cycle3.nodes.length := by
  have hWF : WF cycle3 :=
    ⟨by decide, by decide, by decide, by decide, by decide, by decide⟩
  have h01 : edgeRel cycle3 0 1 := by decide
  have h12 : edgeRel cycle3 1 2 := by decide
  have h20 : edgeRel cycle3 2 0 := by decide
  have hcyc : Relation.TransGen (edgeRel cycle3) 0 0 :=
    Relation.TransGen.head h01
      (Relation.TransGen.head h12 (Relation.TransGen.single h20))
  exact ⟨hWF, top_sort_cycle_partial.1 cycle3 hWF ⟨0, hcyc⟩⟩

/-! ### Aliasing of `get_neighbors` results (C9), in the heap model -/

theorem alook_none_of_lt {l : List (Nat × List Node)} {f : Nat}
    (h : ∀ q ∈ l, q.1 < f) : alook l f = none := by
  cases hl : alook l f with
  | none => rfl
  | some L =>
    obtain ⟨q, hq, hq1, -⟩ := alook_mem hl
    exact absurd (hq1 ▸ h q hq) (lt_irrefl f)

theorem HWF_empty : HWF hEmpty :=
  ⟨by simp [hEmpty], by simp [hEmpty], by simp [hEmpty]⟩

theorem HWF.addNode {s : HGraph} (h : HWF s) (n : Node) :
    HWF (s.add_node n) := by
  unfold HGraph.add_node
  cases hl : alook s.edges n with
  | some i => exact ⟨h.alloc, h.idLt, h.heapLt⟩
  | none =>
    refine ⟨?_, ?_, ?_⟩
    · intro p hp
      rcases List.mem_append.1 hp with hp' | hp'
      · obtain ⟨L, hL⟩ := h.alloc p hp'
        exact ⟨L, alook_append_left hL _⟩
      · simp only [List.mem_singleton] at hp'
        subst hp'
        exact ⟨[], alook_append_self (alook_none_of_lt h.heapLt) []⟩
    · intro p hp
      rcases List.mem_append.1 hp with hp' | hp'
      · exact Nat.lt_succ_of_lt (h.idLt p hp')
      · simp only [List.mem_singleton] at hp'
        subst hp'
        exact Nat.lt_succ_self _
    · intro q hq
      rcases List.mem_append.1 hq with hq' | hq'
      · exact Nat.lt_succ_of_lt (h.heapLt q hq')
      · simp only [List.mem_singleton] at hq'
        subst hq'
        exact Nat.lt_succ_self _

theorem HWF.adjUpdate_heap {s : HGraph} (h : HWF s) (i : Nat) (x : Node) :
    HWF { s with heap := adjUpdate s.heap i x } := by
  refine ⟨?_, h.idLt, ?_⟩
  · intro p hp
    obtain ⟨L, hL⟩ := h.alloc p hp
    rw [alook_adjUpdate]
    by_cases hpi : p.2 = i
    · rw [if_pos hpi, ← hpi, hL]
      exact ⟨_, rfl⟩
    · rw [if_neg hpi]
      exact ⟨L, hL⟩
  · intro q hq
    rcases adjUpdate_mem hq with hq' | ⟨p, hp, -, rfl⟩
    · exact h.heapLt q hq'
    · exact h.heapLt p hp

theorem HWF.addEdge {s : HGraph} (h : HWF s) (u v : Node) :
    HWF (s.add_edge u v) := by
  have h1 : HWF ((s.add_node u).add_node v) := (h.addNode u).addNode v
  unfold HGraph.add_edge
  simp only
  cases hl : alook ((s.add_node u).add_node v).edges u with
  | none => exact h1
  | some i => exact h1.adjUpdate_heap i v

theorem HWF.query {s : HGraph} (h : HWF s) (n : Node) :
    HWF (s.get_neighbors n).2 := by
  unfold HGraph.get_neighbors
  cases hl : alook s.edges n with
  | some i => exact h
  | none =>
    refine ⟨?_, ?_, ?_⟩
    · intro p hp
      obtain ⟨L, hL⟩ := h.alloc p hp
      exact ⟨L, alook_append_left hL _⟩
    · exact fun p hp => Nat.lt_succ_of_lt (h.idLt p hp)
    · intro q hq
      rcases List.mem_append.1 hq with hq' | hq'
      · exact Nat.lt_succ_of_lt (h.heapLt q hq')
      · simp only [List.mem_singleton] at hq'
        subst hq'
        exact Nat.lt_succ_self _

theorem HWF.mutate {s : HGraph} (h : HWF s) (i : Nat) (x : Node) :
    HWF (setAdd s i x) :=
  h.adjUpdate_heap i x

theorem HReachable.hwf {s : HGraph} (h : HReachable s) : HWF s := by
  induction h with
  | empty => exact HWF_empty
  | node n _ ih => exact ih.addNode n
  | edge u v _ ih => exact ih.addEdge u v
  | query n _ ih => exact ih.query n
  | mutate i x _ ih => exact ih.mutate i x

/-- **C9 counterexample**: in the heap model of the source (where
`get_neighbors` returns `self.edges.get(node, set())`, i.e. the internal
set object for a present node), mutating the value returned for node `0`
of the one-edge graph changes the graph's stored adjacency of `0` — the
returned set is *not* safe for the caller to mutate. -/
theorem get_neighbors_alias_counterexample :
    readNbrs hAB 0 = [1] ∧
    readNbrs (setAdd (HGraph.get_neighbors hAB 0).2
        (HGraph.get_neighbors hAB 0).1 2) 0 = [1, 2] := by
  decide

/-- **C9 (amended)**: for a node *present* in the graph, `get_neighbors`
returns the internal adjacency set itself (same identifier, no state
change), so a caller-side mutation of the returned set is visible in the
graph's stored adjacency of that node; only for an *absent* node is the
returned set a fresh object, whose mutation leaves every node's stored
adjacency unchanged. -/
theorem get_neighbors_alias_behaviour (s : HGraph) (n : Node)
    (h : HReachable s) :
    (∀ i, alook s.edges n = some i →
      (s.get_neighbors n).1 = i ∧ (s.get_neighbors n).2 = s ∧
      ∀ x, readNbrs (setAdd s i x) n = setInsert (readNbrs s n) x) ∧
    (alook s.edges n = none →
      ∀ x m, readNbrs (setAdd (s.get_neighbors n).2 (s.get_neighbors n).1 x) m =
        readNbrs s m) := by
  have hw := h.hwf
  constructor
  · intro i hi
    refine ⟨by simp [HGraph.get_neighbors, hi], by simp [HGraph.get_neighbors, hi], ?_⟩
    intro x
    obtain ⟨p, hp, -, hp2⟩ := alook_mem hi
    obtain ⟨L, hL⟩ := hw.alloc p hp
    rw [hp2] at hL
    unfold readNbrs setAdd
    simp only [hi]
    rw [alook_adjUpdate, if_pos rfl, hL]
    simp
  · intro hne x m
    unfold HGraph.get_neighbors
    rw [hne]
    simp only
    unfold setAdd readNbrs
    simp only
    cases hm : alook s.edges m with
    | none => rfl
    | some im =>
      obtain ⟨q, hq, -, hq2⟩ := alook_mem hm
      have him : im < s.fresh := hq2 ▸ hw.idLt q hq
      show (alook (adjUpdate (s.heap ++ [(s.fresh, [])]) s.fresh x) im).getD [] =
        (alook s.heap im).getD []
      rw [alook_adjUpdate, if_neg (by omega : ¬ im = s.fresh)]
      cases hh : alook s.heap im with
      | some L => rw [alook_append_left hh]
      | none =>
        rw [alook_append_none hh]
        show (alook [(s.fresh, ([] : List Node))] im).getD [] = _
        unfold alook
        rw [if_neg (by simp only; omega : ¬ (s.fresh, ([] : List Node)).1 = im)]
        rfl

/-- Witness for the amended C9 at the one-edge heap-model graph. -/
theorem get_neighbors_alias_witness :
    HReachable hAB ∧
      readNbrs (setAdd hAB 0 2) 0 = setInsert (readNbrs hAB 0) 2 := by
  have hr : HReachable hAB := HReachable.edge 0 1 HReachable.empty
  have hi : alook hAB.edges 0 = some 0 := by decide
  exact ⟨hr, ((get_neighbors_alias_behaviour hAB 0 hr).1 0 hi).2.2 2⟩
